import Mathlib

/-!
Shallow embedding of the core of the `stack-exchange` spot-trading backend:
the balance ledger (`app/repositories/balance_repository.py`), the order and
transaction stores (`app/repositories/order_repository.py`,
`app/repositories/transaction_repository.py`) and the matching engine
(`app/services/exchange_service.py`, `app/services/balance_service.py`).

The persistent substrate is modelled as explicit state: balances are an
association list keyed by `(user_id, ticker)` with the two fields the
repositories use (`amount`, `locked_amount`); orders and transactions are
lists in insertion order.  Each repository method that commits on its own in
the source is a state-transforming function here; service methods thread the
state through the same sequence of repository calls as the Python code,
including the calls that the source makes twice (the service and the
repository both lock on order creation, both unlock on cancellation, and the
match loop settles balances directly while `TransactionRepository.create`
schedules the same four balance updates again).
-/

deriving instance DecidableEq for Except

namespace StackExchange

inductive Direction where
  | buy
  | sell
deriving DecidableEq

inductive OrderType where
  | limit
  | market
deriving DecidableEq

inductive OrderStatus where
  | new
  | executed
  | partExecuted
  | cancelled
deriving DecidableEq

/-- A row of the `orders` table as the repositories use it
(`id`, `user_id`, `ticker`, `type`, `direction`, `price` nullable,
`qty`, `filled`, `status`, `created_at`). -/
structure Order where
  id : Nat
  userId : Nat
  ticker : String
  otype : OrderType
  direction : Direction
  price : Option Int
  qty : Int
  filled : Int
  status : OrderStatus
  createdAt : Nat
deriving DecidableEq

/-- A balance row as `BalanceRepository` uses it: `amount` and `locked_amount`. -/
structure Balance where
  amount : Int
  lockedAmount : Int
deriving DecidableEq

/-- A row of the `transactions` table as `TransactionRepository.create` fills it. -/
structure Trade where
  ticker : String
  amount : Int
  price : Int
  buyerOrderId : Nat
  sellerOrderId : Nat
deriving DecidableEq

/-- One price level of the L2 book (`app/models/base.py`, `Level`). -/
structure Level where
  price : Int
  qty : Int
deriving DecidableEq

/-- `L2OrderBook` from `app/models/base.py`. -/
structure L2OrderBook where
  bidLevels : List Level
  askLevels : List Level
deriving DecidableEq

/-- The persistent state the engine mutates: users (id, is_active), active
instrument tickers, balance rows, order rows, transaction rows, plus the id
source and the wall clock used for `created_at`. -/
structure ExchangeState where
  users : List (Nat × Bool)
  instruments : List String
  balances : List ((Nat × String) × Balance)
  orders : List Order
  transactions : List Trade
  nextOrderId : Nat
  time : Nat
deriving DecidableEq

/-- Errors surfaced by the services (HTTP status plus detail collapsed to a tag). -/
inductive ApiError where
  | notFound
  | insufficientFunds
  | noLiquidity
  | badRequest
  | forbidden
  | cannotCancel
  | typeErr
deriving DecidableEq

/-- `LimitOrderBody` (`app/models/order.py`). -/
structure LimitOrderBody where
  direction : Direction
  ticker : String
  qty : Int
  price : Int
deriving DecidableEq

/-- `MarketOrderBody` (`app/models/order.py`). -/
structure MarketOrderBody where
  direction : Direction
  ticker : String
  qty : Int
deriving DecidableEq

/-! ## Balance repository (`app/repositories/balance_repository.py`) -/

namespace BalanceRepository

/-- `get_by_user_and_ticker`. -/
def findBalance (s : ExchangeState) (u : Nat) (t : String) : Option Balance :=
  (s.balances.find? (fun e => e.1.1 == u && e.1.2 == t)).map (fun e => e.2)

/-- Write a balance row back (the row exists) or insert it (lazily created
rows are appended, mirroring `db.add`). -/
def setBalanceRow (s : ExchangeState) (u : Nat) (t : String) (b : Balance) :
    ExchangeState :=
  match findBalance s u t with
  | some _ =>
      { s with balances :=
          s.balances.map (fun e => if e.1.1 = u ∧ e.1.2 = t then (e.1, b) else e) }
  | none => { s with balances := s.balances ++ [((u, t), b)] }

/-- `lock_balance`: creates the row if absent (rolled back again on failure),
requires `amount - locked_amount >= amt`, then `locked_amount += amt`. -/
def lockBalance (s : ExchangeState) (u : Nat) (t : String) (amt : Int) :
    Option Balance × ExchangeState :=
  let b := (findBalance s u t).getD ⟨0, 0⟩
  if b.amount - b.lockedAmount < amt then (none, s)
  else
    let b' : Balance := ⟨b.amount, b.lockedAmount + amt⟩
    (some b', setBalanceRow s u t b')

/-- `unlock_balance`: requires the row and `locked_amount >= amt`,
then `locked_amount -= amt`. -/
def unlockBalance (s : ExchangeState) (u : Nat) (t : String) (amt : Int) :
    Option Balance × ExchangeState :=
  match findBalance s u t with
  | none => (none, s)
  | some b =>
      if b.lockedAmount < amt then (none, s)
      else
        let b' : Balance := ⟨b.amount, b.lockedAmount - amt⟩
        (some b', setBalanceRow s u t b')

/-- `unlock_and_subtract_balance`: requires the row, `locked_amount >= amt`
and `amount >= amt`, then decrements both. -/
def unlockAndSubtractBalance (s : ExchangeState) (u : Nat) (t : String)
    (amt : Int) : Option Balance × ExchangeState :=
  match findBalance s u t with
  | none => (none, s)
  | some b =>
      if b.lockedAmount < amt ∨ b.amount < amt then (none, s)
      else
        let b' : Balance := ⟨b.amount - amt, b.lockedAmount - amt⟩
        (some b', setBalanceRow s u t b')

/-- `update_balance` (also the body of the async task in
`app/tasks/balance_tasks.py`): `amount += amt` on an existing row, otherwise
insert a row holding `amt` with nothing locked. -/
def updateBalance (s : ExchangeState) (u : Nat) (t : String) (amt : Int) :
    ExchangeState :=
  match findBalance s u t with
  | some b => setBalanceRow s u t ⟨b.amount + amt, b.lockedAmount⟩
  | none => { s with balances := s.balances ++ [((u, t), ⟨amt, 0⟩)] }

end BalanceRepository

/-! ## Order repository (`app/repositories/order_repository.py`) -/

def isActiveStatus : OrderStatus → Bool
  | .new => true
  | .partExecuted => true
  | _ => false

namespace OrderRepository

open BalanceRepository

/-- `get_by_id`: first row with the id. -/
def findOrder (s : ExchangeState) (oid : Nat) : Option Order :=
  s.orders.find? (fun o => o.id == oid)

/-- `get_active_by_ticker`: rows of the ticker with status NEW or
PARTIALLY_EXECUTED, limited to `lim` rows (the caller in `get_orderbook`
uses the default limit of 10). -/
def getActiveByTicker (s : ExchangeState) (t : String) (lim : Nat) : List Order :=
  (s.orders.filter (fun o => o.ticker == t && isActiveStatus o.status)).take lim

/-- `create_limit_order`: locks `qty` of the ticker for SELL or
`qty * price` of RUB for BUY (a second lock on top of the service's), then
inserts the order with status NEW and `filled = 0`. -/
def createLimitOrder (s : ExchangeState) (uid : Nat) (b : LimitOrderBody) :
    Except ApiError Order × ExchangeState :=
  let lockTicker := if b.direction = .sell then b.ticker else "RUB"
  let lockAmount := if b.direction = .sell then b.qty else b.qty * b.price
  match lockBalance s uid lockTicker lockAmount with
  | (none, s1) => (.error .insufficientFunds, s1)
  | (some _, s1) =>
      let o : Order :=
        ⟨s1.nextOrderId, uid, b.ticker, .limit, b.direction, some b.price,
          b.qty, 0, .new, s1.time⟩
      (.ok o,
        { s1 with orders := s1.orders ++ [o],
                  nextOrderId := s1.nextOrderId + 1, time := s1.time + 1 })

/-- `create_market_order`: locks `qty` of the ticker for SELL only (no lock
for BUY — the service already locked the pre-walk cost), then inserts the
order with a NULL price. -/
def createMarketOrder (s : ExchangeState) (uid : Nat) (b : MarketOrderBody) :
    Except ApiError Order × ExchangeState :=
  match (if b.direction = .sell then lockBalance s uid b.ticker b.qty
         else (some ⟨0, 0⟩, s)) with
  | (none, s1) => (.error .insufficientFunds, s1)
  | (some _, s1) =>
      let o : Order :=
        ⟨s1.nextOrderId, uid, b.ticker, .market, b.direction, none,
          b.qty, 0, .new, s1.time⟩
      (.ok o,
        { s1 with orders := s1.orders ++ [o],
                  nextOrderId := s1.nextOrderId + 1, time := s1.time + 1 })

/-- `cancel_order`: for an active LIMIT order unlocks the residual
(`(qty - filled) * price` of RUB for BUY, `qty - filled` of the ticker for
SELL); for an active MARKET SELL unlocks the residual quantity; then sets
status CANCELLED.  Returns `false` without changes when the order is missing
or terminal. -/
def cancelOrder (s : ExchangeState) (oid : Nat) : Bool × ExchangeState :=
  match findOrder s oid with
  | none => (false, s)
  | some o =>
      if ¬ (isActiveStatus o.status = true) then (false, s)
      else
        let rq := o.qty - o.filled
        let s1 :=
          if o.otype = .limit then
            if rq > 0 then
              if o.direction = .sell then (unlockBalance s o.userId o.ticker rq).2
              else (unlockBalance s o.userId "RUB" (rq * o.price.getD 0)).2
            else s
          else
            if o.direction = .sell ∧ rq > 0 then
              (unlockBalance s o.userId o.ticker rq).2
            else s
        (true,
          { s1 with orders :=
              s1.orders.map (fun x => if x.id = oid then { x with status := .cancelled } else x) })

end OrderRepository

/-! ## Transaction repository (`app/repositories/transaction_repository.py`) -/

namespace TransactionRepository

open BalanceRepository OrderRepository

/-- `create`: appends the trade row, then looks both orders up and schedules
`update_balance_async` for all four legs (buyer gets the asset, seller loses
it, buyer pays RUB, seller receives RUB) — on top of the settlement the match
loop already performed. -/
def create (s : ExchangeState) (ticker : String) (amount price : Int)
    (buyerOid sellerOid : Nat) : ExchangeState :=
  let s1 := { s with transactions :=
      s.transactions ++ [⟨ticker, amount, price, buyerOid, sellerOid⟩] }
  match findOrder s1 buyerOid, findOrder s1 sellerOid with
  | some bo, some so =>
      let s2 := updateBalance s1 bo.userId ticker amount
      let s3 := updateBalance s2 so.userId ticker (-amount)
      let s4 := updateBalance s3 bo.userId "RUB" (-(amount * price))
      updateBalance s4 so.userId "RUB" (amount * price)
  | _, _ => s1

end TransactionRepository

/-! ## Exchange service (`app/services/exchange_service.py`) -/

def remainingOf (o : Order) : Int := o.qty - o.filled

/-- The price the service reads off an order row (the rows it reads it from
are LIMIT rows, whose price is always set). -/
def priceOf (o : Order) : Int := o.price.getD 0

def bidsOf (l : List Order) : List Order :=
  l.filter (fun o => o.direction == .buy && o.otype == .limit)

def asksOf (l : List Order) : List Order :=
  l.filter (fun o => o.direction == .sell && o.otype == .limit)

/-- `bids.sort(key=lambda x: x.price, reverse=True)` — a stable sort by price
descending. -/
def sortBids (l : List Order) : List Order :=
  l.insertionSort (fun a b => priceOf b ≤ priceOf a)

/-- `asks.sort(key=lambda x: x.price)` — a stable sort by price ascending. -/
def sortAsks (l : List Order) : List Order :=
  l.insertionSort (fun a b => priceOf a ≤ priceOf b)

/-- The dict-building loop of `get_orderbook`: add `qty - filled` to the
level of this price, appending a new level when the price is new. -/
def upsertLevel (levels : List Level) (p q : Int) : List Level :=
  match levels with
  | [] => [⟨p, q⟩]
  | lvl :: rest =>
      if lvl.price = p then ⟨lvl.price, lvl.qty + q⟩ :: rest
      else lvl :: upsertLevel rest p q

def groupFrom (acc : List Level) : List Order → List Level
  | [] => acc
  | o :: rest => groupFrom (upsertLevel acc (priceOf o) (remainingOf o)) rest

/-- Group a (sorted) list of orders into price levels, each accumulating
`qty - filled`, levels kept in first-occurrence order. -/
def groupLevels (l : List Order) : List Level := groupFrom [] l

namespace ExchangeService

open BalanceRepository OrderRepository TransactionRepository

/-- `get_orderbook`: reads the active orders of the ticker through
`get_active_by_ticker` (which uses its default limit of 10 rows), splits
them into LIMIT bids and asks, sorts, groups into levels, and truncates each
side to `lim` levels. -/
def getOrderbook (s : ExchangeState) (ticker : String) (lim : Nat) : L2OrderBook :=
  let active := getActiveByTicker s ticker 10
  let bids := sortBids (bidsOf active)
  let asks := sortAsks (asksOf active)
  ⟨(groupLevels bids).take lim, (groupLevels asks).take lim⟩

def counterOf : Direction → Direction
  | .buy => .sell
  | .sell => .buy

/-- The candidate filter of `_match_orders`: same ticker, opposite
direction, active status, a different id, and — for a LIMIT taker — a
compatible (non-NULL) price. -/
def candFilter (taker : Order) (o : Order) : Bool :=
  o.ticker == taker.ticker && o.direction == counterOf taker.direction &&
  isActiveStatus o.status && o.id != taker.id &&
  (if taker.otype == OrderType.limit then
     (match o.price, taker.price with
      | some p, some tp =>
          if taker.direction == Direction.buy then decide (p ≤ tp) else decide (tp ≤ p)
      | _, _ => false)
   else true)

/-- The sort key of the `order_by(price.asc/desc, created_at)` clause:
NULL prices sort as larger than every price (ascending puts them last,
descending puts them first), then `created_at` ascending.  There is no
tiebreak beyond `created_at`. -/
def candKey (isBuy : Bool) (o : Order) : Nat × Int × Nat :=
  if isBuy then ((if o.price.isSome then 0 else 1), priceOf o, o.createdAt)
  else ((if o.price.isSome then 1 else 0), -(priceOf o), o.createdAt)

def KeyLE (a b : Nat × Int × Nat) : Prop :=
  a.1 < b.1 ∨ (a.1 = b.1 ∧ (a.2.1 < b.2.1 ∨ (a.2.1 = b.2.1 ∧ a.2.2 ≤ b.2.2)))

instance : DecidableRel KeyLE := fun a b => by
  unfold KeyLE; exact inferInstance

/-- The ordering the match loop consumes candidates in: a stable sort by
`candKey` (i.e. by price priority, then `created_at`; ties beyond that keep
store order). -/
def sortCandidates (isBuy : Bool) (l : List Order) : List Order :=
  l.insertionSort (fun a b => KeyLE (candKey isBuy a) (candKey isBuy b))

/-- Execution price: the resting order's price for a MARKET taker; for a
LIMIT taker the price of whichever order was created first. -/
def execPriceFor (taker cand : Order) : Int :=
  if taker.otype = .market then priceOf cand
  else if taker.createdAt < cand.createdAt then priceOf taker else priceOf cand

def statusFor (f q : Int) : OrderStatus :=
  if f = q then .executed else .partExecuted

/-- Overwrite `filled` and `status` of the order(s) with this id. -/
def setFill (orders : List Order) (oid : Nat) (f : Int) (st : OrderStatus) :
    List Order :=
  orders.map (fun o => if o.id = oid then { o with filled := f, status := st } else o)

/-- The four balance mutations of one fill, in the order the `is_buy` /
`else` branches of `_match_orders` perform them (failures of
`unlock_and_subtract_balance` are logged and ignored). -/
def applyFillBalances (s : ExchangeState) (isBuy : Bool)
    (takerUser candUser : Nat) (ticker : String) (q p : Int) : ExchangeState :=
  if isBuy then
    let s1 := (unlockAndSubtractBalance s takerUser "RUB" (q * p)).2
    let s2 := updateBalance s1 takerUser ticker q
    let s3 := (unlockAndSubtractBalance s2 candUser ticker q).2
    updateBalance s3 candUser "RUB" (q * p)
  else
    let s1 := (unlockAndSubtractBalance s takerUser ticker q).2
    let s2 := updateBalance s1 takerUser "RUB" (q * p)
    let s3 := (unlockAndSubtractBalance s2 candUser "RUB" (q * p)).2
    updateBalance s3 candUser ticker q

/-- The body of the matching loop.  `r` is the taker's remaining quantity,
`f` its accumulated `filled`.  Each iteration fills
`min(remaining, candidate.qty - candidate.filled)` at the execution price,
updates both orders' `filled`/`status`, settles the four balance legs, and
appends the trade (which itself schedules four more balance updates). -/
def matchLoop (taker : Order) (isBuy : Bool) :
    List Order → ExchangeState → Int → Int → ExchangeState × Int × Int
  | [], s, r, f => (s, r, f)
  | c :: rest, s, r, f =>
      if r ≤ 0 then (s, r, f)
      else
        let p := execPriceFor taker c
        let e := min r (c.qty - c.filled)
        let f' := f + e
        let s1 := { s with orders := setFill s.orders taker.id f' (statusFor f' taker.qty) }
        let cf := c.filled + e
        let s2 := { s1 with orders := setFill s1.orders c.id cf (statusFor cf c.qty) }
        let s3 := applyFillBalances s2 isBuy taker.userId c.userId taker.ticker e p
        let buyerOid := if isBuy then taker.id else c.id
        let sellerOid := if isBuy then c.id else taker.id
        let s4 := TransactionRepository.create s3 taker.ticker e p buyerOid sellerOid
        matchLoop taker isBuy rest s4 (r - e) f'

/-- `_match_orders`: look the taker up, collect and sort the opposite-side
candidates, and run the fill loop. -/
def matchOrders (s : ExchangeState) (oid : Nat) : ExchangeState :=
  match findOrder s oid with
  | none => s
  | some ord =>
      if ord.status = .executed ∨ ord.status = .cancelled then s
      else
        let isBuy := ord.direction = .buy
        let cands := sortCandidates isBuy (s.orders.filter (candFilter ord))
        if cands.isEmpty then s
        else (matchLoop ord isBuy cands s (ord.qty - ord.filled) ord.filled).1

/-- `create_limit_order` (service): instrument check, balance pre-check,
service-level lock, then `OrderRepository.create_limit_order` (which locks
again) and the match loop. -/
def createLimitOrder (s : ExchangeState) (uid : Nat) (b : LimitOrderBody) :
    Except ApiError Nat × ExchangeState :=
  if ¬ (b.ticker ∈ s.instruments) then (.error .notFound, s)
  else
    let step2 : Except ApiError Unit × ExchangeState :=
      if b.direction = .buy then
        let required := b.price * b.qty
        match findBalance s uid "RUB" with
        | none => (.error .insufficientFunds, s)
        | some bal =>
            if bal.amount - bal.lockedAmount < required then (.error .insufficientFunds, s)
            else
              match lockBalance s uid "RUB" required with
              | (none, s1) => (.error .insufficientFunds, s1)
              | (some _, s1) => (.ok (), s1)
      else
        match findBalance s uid b.ticker with
        | none => (.error .insufficientFunds, s)
        | some bal =>
            if bal.amount < b.qty then (.error .insufficientFunds, s)
            else
              match lockBalance s uid b.ticker b.qty with
              | (none, s1) => (.error .insufficientFunds, s1)
              | (some _, s1) => (.ok (), s1)
    match step2 with
    | (.error e, s1) => (.error e, s1)
    | (.ok _, s1) =>
        match OrderRepository.createLimitOrder s1 uid b with
        | (.error e, s2) => (.error e, s2)
        | (.ok o, s2) => (.ok o.id, matchOrders s2 o.id)

/-- The liquidity walk of `create_market_order` for a BUY: accumulate
`min(remaining, level.qty) * level.price` over the ask levels; returns the
required amount and the remaining quantity. -/
def prewalk (levels : List Level) (qty : Int) : Int × Int :=
  levels.foldl
    (fun acc lvl =>
      if acc.2 ≤ 0 then acc
      else (acc.1 + min acc.2 lvl.qty * lvl.price, acc.2 - min acc.2 lvl.qty))
    (0, qty)

/-- `create_market_order` (service): instrument check, liquidity pre-walk
over the book snapshot, balance check, service-level lock, then
`OrderRepository.create_market_order` and the match loop. -/
def createMarketOrder (s : ExchangeState) (uid : Nat) (b : MarketOrderBody) :
    Except ApiError Nat × ExchangeState :=
  if ¬ (b.ticker ∈ s.instruments) then (.error .notFound, s)
  else
    let ob := getOrderbook s b.ticker 10
    let step2 : Except ApiError Unit × ExchangeState :=
      if b.direction = .buy then
        if ob.askLevels.isEmpty then (.error .badRequest, s)
        else
          let required := (prewalk ob.askLevels b.qty).1
          if (prewalk ob.askLevels b.qty).2 > 0 then (.error .noLiquidity, s)
          else
            match findBalance s uid "RUB" with
            | none => (.error .insufficientFunds, s)
            | some bal =>
                if bal.amount < required then (.error .insufficientFunds, s)
                else
                  match lockBalance s uid "RUB" required with
                  | (none, s1) => (.error .insufficientFunds, s1)
                  | (some _, s1) => (.ok (), s1)
      else
        if ob.bidLevels.isEmpty then (.error .badRequest, s)
        else
          match findBalance s uid b.ticker with
          | none => (.error .insufficientFunds, s)
          | some bal =>
              if bal.amount < b.qty then (.error .insufficientFunds, s)
              else if (ob.bidLevels.map Level.qty).sum < b.qty then (.error .noLiquidity, s)
              else
                match lockBalance s uid b.ticker b.qty with
                | (none, s1) => (.error .insufficientFunds, s1)
                | (some _, s1) => (.ok (), s1)
    match step2 with
    | (.error e, s1) => (.error e, s1)
    | (.ok _, s1) =>
        match OrderRepository.createMarketOrder s1 uid b with
        | (.error e, s2) => (.error e, s2)
        | (.ok o, s2) => (.ok o.id, matchOrders s2 o.id)

/-- `cancel_order` (service): ownership and status checks, the service-level
unlock of the residual — for a BUY computed as `(qty - filled) * price`,
which raises a TypeError when `price` is NULL (MARKET orders) — then
`OrderRepository.cancel_order`, which unlocks the residual again. -/
def cancelOrder (s : ExchangeState) (uid oid : Nat) :
    Except ApiError Bool × ExchangeState :=
  match findOrder s oid with
  | none => (.error .notFound, s)
  | some o =>
      if o.userId ≠ uid then (.error .forbidden, s)
      else if ¬ (isActiveStatus o.status = true) then (.error .cannotCancel, s)
      else if o.direction = .buy then
        match o.price with
        | none => (.error .typeErr, s)
        | some p =>
            let rv := (o.qty - o.filled) * p
            let s1 := if rv > 0 then (unlockBalance s uid "RUB" rv).2 else s
            let (res, s2) := OrderRepository.cancelOrder s1 oid
            (.ok res, s2)
      else
        let rq := o.qty - o.filled
        let s1 := if rq > 0 then (unlockBalance s uid o.ticker rq).2 else s
        let (res, s2) := OrderRepository.cancelOrder s1 oid
        (.ok res, s2)

end ExchangeService

/-! ## Balance service (`app/services/balance_service.py`) -/

namespace BalanceService

open BalanceRepository

def userActive (s : ExchangeState) (uid : Nat) : Bool :=
  match s.users.find? (fun e => e.1 == uid) with
  | some e => e.2
  | none => false

/-- `deposit`: active-user check, instrument check (RUB exempt),
positive-amount check, then `update_balance`. -/
def deposit (s : ExchangeState) (uid : Nat) (t : String) (amt : Int) :
    Except ApiError Unit × ExchangeState :=
  if ¬ (userActive s uid = true) then (.error .notFound, s)
  else if t ≠ "RUB" ∧ ¬ (t ∈ s.instruments) then (.error .notFound, s)
  else if amt ≤ 0 then (.error .badRequest, s)
  else (.ok (), updateBalance s uid t amt)

/-- `withdraw`: the same checks, then requires only `balance.amount >= amt`
(the locked amount is not consulted) and applies `update_balance` with
`-amt`. -/
def withdraw (s : ExchangeState) (uid : Nat) (t : String) (amt : Int) :
    Except ApiError Unit × ExchangeState :=
  if ¬ (userActive s uid = true) then (.error .notFound, s)
  else if t ≠ "RUB" ∧ ¬ (t ∈ s.instruments) then (.error .notFound, s)
  else if amt ≤ 0 then (.error .badRequest, s)
  else
    match findBalance s uid t with
    | none => (.error .insufficientFunds, s)
    | some bal =>
        if bal.amount < amt then (.error .insufficientFunds, s)
        else (.ok (), updateBalance s uid t (-amt))

end BalanceService

/-! ## Operations, for stating state-machine invariants -/

/-- One externally triggered operation of the core. -/
inductive Op where
  | deposit (uid : Nat) (t : String) (amt : Int)
  | withdraw (uid : Nat) (t : String) (amt : Int)
  | limitOrder (uid : Nat) (b : LimitOrderBody)
  | marketOrder (uid : Nat) (b : MarketOrderBody)
  | cancel (uid : Nat) (oid : Nat)
deriving DecidableEq

/-- The state after an operation completes (successfully or not — the
repositories commit stepwise, so the state reached on an error path is the
observable one). -/
def applyOp (s : ExchangeState) : Op → ExchangeState
  | .deposit uid t amt => (BalanceService.deposit s uid t amt).2
  | .withdraw uid t amt => (BalanceService.withdraw s uid t amt).2
  | .limitOrder uid b => (ExchangeService.createLimitOrder s uid b).2
  | .marketOrder uid b => (ExchangeService.createMarketOrder s uid b).2
  | .cancel uid oid => (ExchangeService.cancelOrder s uid oid).2

/-- Requests whose bodies respect the data model (positive quantity,
positive limit price); the HTTP layer of the source does not enforce this,
the spec's data model does. -/
def ValidOp : Op → Prop
  | .limitOrder _ b => 0 < b.qty ∧ 0 < b.price
  | .marketOrder _ b => 0 < b.qty
  | _ => True

/-- The lower half of the claim's balance invariant: no balance row ever has
a negative reserved (locked) amount. -/
def BalInv (s : ExchangeState) : Prop :=
  ∀ e ∈ s.balances, 0 ≤ e.2.lockedAmount

/-- Well-formedness of an order row relative to the id source: fills within
bounds, id already allocated, and LIMIT rows carry a positive price. -/
def OrdP (nid : Nat) (o : Order) : Prop :=
  0 ≤ o.filled ∧ o.filled ≤ o.qty ∧ o.id < nid ∧
    (o.otype = .limit → o.price.isSome = true ∧ 0 < priceOf o)

/-- The state invariant the operations preserve: nonnegative reserved
amounts, well-formed order rows, and distinct order ids. -/
def Inv (s : ExchangeState) : Prop :=
  BalInv s ∧ (∀ o ∈ s.orders, OrdP s.nextOrderId o) ∧
    (s.orders.map Order.id).Nodup

instance (op : Op) : Decidable (ValidOp op) := by
  cases op <;> (unfold ValidOp; exact inferInstance)

instance (s : ExchangeState) : Decidable (BalInv s) := by
  unfold BalInv; exact inferInstance

instance (nid : Nat) (o : Order) : Decidable (OrdP nid o) := by
  unfold OrdP; exact inferInstance

instance (s : ExchangeState) : Decidable (Inv s) := by
  unfold Inv; exact inferInstance

/-- Witness state for the invariant-preservation claim. -/
def c6WState : ExchangeState :=
  ⟨[(1, true), (2, true)], ["MEM"],
   [((1, "RUB"), ⟨1000, 0⟩), ((2, "MEM"), ⟨10, 4⟩)],
   [⟨0, 2, "MEM", .limit, .sell, some 50, 4, 0, .new, 0⟩], [], 1, 1⟩

/-- The claim-level balance invariant `0 ≤ reserved ≤ total`, as a decidable
check over every balance row. -/
def balInvHolds (s : ExchangeState) : Bool :=
  s.balances.all (fun e => 0 ≤ e.2.lockedAmount && e.2.lockedAmount ≤ e.2.amount)

/-- Spec-side quantity of a price level of the ask side: the sum of
`quantity − filled` over ALL active resting LIMIT SELL orders of the ticker
at that price (the spec's definition of per-level qty, for comparison with
what `get_orderbook` returns). -/
def askRemainingAt (s : ExchangeState) (ticker : String) (p : Int) : Int :=
  ((s.orders.filter (fun o =>
      o.ticker == ticker && isActiveStatus o.status &&
      o.otype == OrderType.limit && o.direction == Direction.sell &&
      o.price == some p)).map remainingOf).sum

/-- The remaining-quantity evolution shared by the market pre-walk and the
match loop: starting from `r`, each step consumes `min r q` unless the
remainder is already exhausted. -/
def consumeQty (r : Int) (qs : List Int) : Int :=
  qs.foldl (fun acc q => if acc ≤ 0 then acc else acc - min acc q) r

/-- How one iteration of the match loop rewrites the taker's row: filled
becomes the accumulator, status EXECUTED exactly when filled reaches the
taker's quantity. -/
def fillUpd (taker : Order) (g : Int) : Order → Order :=
  fun o => { o with filled := g, status := ExchangeService.statusFor g taker.qty }

/-- The quantity recorded for price `x` in a list of levels (0 when the
price has no level) — the lookup view of the grouping dict. -/
def lvlQty (levels : List Level) (x : Int) : Int :=
  ((levels.find? (fun lvl => lvl.price == x)).map Level.qty).getD 0

/-! ## Concrete scenario states -/

/-- Scenario S1 seed: Alice (user 1) with 1000 RUB, Bob (user 2) with
10 MEM, instrument MEM active. -/
def s1Seed : ExchangeState :=
  ⟨[(1, true), (2, true)], ["MEM"],
   [((1, "RUB"), ⟨1000, 0⟩), ((2, "MEM"), ⟨10, 0⟩)], [], [], 0, 0⟩

/-- S1 after Bob's LIMIT SELL MEM 5 @ 100. -/
def s1AfterSell : ExchangeState :=
  (ExchangeService.createLimitOrder s1Seed 2 ⟨.sell, "MEM", 5, 100⟩).2

/-- S1 after Alice's LIMIT BUY MEM 5 @ 100 (the cross executes). -/
def s1Final : ExchangeState :=
  (ExchangeService.createLimitOrder s1AfterSell 1 ⟨.buy, "MEM", 5, 100⟩).2

/-- A user whose available RUB exactly covers one reservation of the order
value. -/
def c2State : ExchangeState :=
  ⟨[(1, true)], ["MEM"], [((1, "RUB"), ⟨500, 0⟩)], [], [], 0, 0⟩

/-- A user with 1000 RUB available, twice the value of the order about to be
submitted. -/
def c3State : ExchangeState :=
  ⟨[(1, true)], ["MEM"], [((1, "RUB"), ⟨1000, 0⟩)], [], [], 0, 0⟩

/-- Scenario S2 seed: Alice 1000 RUB, Bob 10 MEM. -/
def s2Seed : ExchangeState :=
  ⟨[(1, true), (2, true)], ["MEM"],
   [((1, "RUB"), ⟨1000, 0⟩), ((2, "MEM"), ⟨10, 0⟩)], [], [], 0, 0⟩

/-- S2: Bob LIMIT SELL MEM 3 @ 50, then Alice LIMIT BUY MEM 5 @ 50
(order id 1), which crosses 3 and rests with remainder 2. -/
def s2Final : ExchangeState :=
  (ExchangeService.createLimitOrder
    (ExchangeService.createLimitOrder s2Seed 2 ⟨.sell, "MEM", 3, 50⟩).2
    1 ⟨.buy, "MEM", 5, 50⟩).2

/-- S3: Alice cancels her partially filled order A1 (id 1). -/
def s3Final : ExchangeState := (ExchangeService.cancelOrder s2Final 1 1).2

/-- Seed for the balance-invariant counterexample: one user with 100 RUB. -/
def c6Seed : ExchangeState :=
  ⟨[(1, true)], ["MEM"], [((1, "RUB"), ⟨100, 0⟩)], [], [], 0, 0⟩

/-- Submit LIMIT BUY MEM 1 @ 50 (the engine locks 100: 50 in the service and
50 again in the repository), then withdraw 50. -/
def c6Final : ExchangeState :=
  applyOp (applyOp c6Seed (.limitOrder 1 ⟨.buy, "MEM", 1, 50⟩)) (.withdraw 1 "RUB" 50)

/-- A user whose RUB balance is fully reserved: total 100, reserved 100. -/
def c7State : ExchangeState :=
  ⟨[(1, true)], [], [((1, "RUB"), ⟨100, 100⟩)], [], [], 0, 0⟩

/-- Two resting SELL LIMIT orders at the same price with the same
`created_at`, stored in the order id 2 before id 1; the taker Alice has
200 RUB (enough for the double reservation of a 100-RUB order). -/
def c8State : ExchangeState :=
  ⟨[(1, true), (2, true), (3, true)], ["MEM"],
   [((1, "RUB"), ⟨200, 0⟩), ((2, "MEM"), ⟨1, 1⟩), ((3, "MEM"), ⟨1, 1⟩)],
   [⟨2, 2, "MEM", .limit, .sell, some 100, 1, 0, .new, 0⟩,
    ⟨1, 3, "MEM", .limit, .sell, some 100, 1, 0, .new, 0⟩],
   [], 10, 5⟩

/-- The state after Alice's LIMIT BUY MEM 1 @ 100 into `c8State`. -/
def c8Final : ExchangeState :=
  (ExchangeService.createLimitOrder c8State 1 ⟨.buy, "MEM", 1, 100⟩).2

/-- Eleven active SELL LIMIT orders on MEM at eleven distinct prices
100..110, one unit each. -/
def c9State : ExchangeState :=
  ⟨[(2, true)], ["MEM"], [((2, "MEM"), ⟨11, 11⟩)],
   (List.range 11).map
     (fun i => ⟨i, 2, "MEM", .limit, .sell, some (100 + (i : Int)), 1, 0, .new, i⟩),
   [], 20, 20⟩

/-- Witness state for the market-order claim: one resting SELL LIMIT
MEM 5 @ 100 (user 2, fully reserved), taker Alice with 1000 RUB. -/
def c4WState : ExchangeState :=
  ⟨[(1, true), (2, true)], ["MEM"],
   [((1, "RUB"), ⟨1000, 0⟩), ((2, "MEM"), ⟨5, 5⟩)],
   [⟨0, 2, "MEM", .limit, .sell, some 100, 5, 0, .new, 0⟩], [], 1, 1⟩

/-- Witness body: MARKET BUY MEM 4. -/
def c4WBody : MarketOrderBody := ⟨.buy, "MEM", 4⟩

/-- A resting (constructed) MARKET BUY order with `price = NULL`,
`filled < qty`, status NEW. -/
def c10Order : Order := ⟨0, 1, "MEM", .market, .buy, none, 5, 0, .new, 0⟩

/-- A state holding `c10Order` for user 1. -/
def c10State : ExchangeState :=
  ⟨[(1, true)], ["MEM"], [((1, "RUB"), ⟨100, 0⟩)], [c10Order], [], 1, 1⟩

/-- Witness state for the amended withdraw claim: user 1 active with a RUB
row (total 100, reserved 0). -/
def c7WState : ExchangeState :=
  ⟨[(1, true)], [], [((1, "RUB"), ⟨100, 0⟩)], [], [], 0, 0⟩

/-! ## Claims settled on concrete inputs -/

/-- Claim C1 is contradicted by the code: in scenario S1 each settlement leg
is applied twice — once directly in `_match_orders` and once more by the
balance updates `TransactionRepository.create` schedules — and the order
value was locked twice at submission, so after the cross Alice's CASH row is
(total 0, reserved 500) and Bob's CASH row is (total 1000, reserved 0),
not total 500 / 500 with nothing reserved as the claim states; the single
trade itself is recorded correctly. -/
theorem c1_s1_settlement_doubled :
    BalanceRepository.findBalance s1Final 1 "RUB" = some ⟨0, 500⟩ ∧
    BalanceRepository.findBalance s1Final 2 "RUB" = some ⟨1000, 0⟩ ∧
    BalanceRepository.findBalance s1Final 1 "MEM" = some ⟨10, 0⟩ ∧
    s1Final.transactions = [⟨"MEM", 5, 100, 1, 0⟩] := by
  decide

/-- Claim C2 is contradicted by the code: submitting LIMIT BUY MEM 5 @ 100
with exactly 500 RUB available makes the service's `lock_balance` commit a
500 reservation, after which the repository's second `lock_balance` fails
and the submission aborts — but the first reservation survives and no order
exists, an observable partial side effect. -/
theorem c2_reservation_survives_failed_submission :
    (ExchangeService.createLimitOrder c2State 1 ⟨.buy, "MEM", 5, 100⟩).1 =
      .error .insufficientFunds ∧
    BalanceRepository.findBalance
      (ExchangeService.createLimitOrder c2State 1 ⟨.buy, "MEM", 5, 100⟩).2 1 "RUB" =
      some ⟨500, 500⟩ ∧
    (ExchangeService.createLimitOrder c2State 1 ⟨.buy, "MEM", 5, 100⟩).2.orders = [] := by
  decide

/-- Claim C3 is contradicted by the code: admitting LIMIT BUY MEM 5 @ 100
(order value 500) increases the reserved amount by 1000, because both
`ExchangeService.create_limit_order` and `OrderRepository.create_limit_order`
call `lock_balance` with quantity × price. -/
theorem c3_reservation_locked_twice :
    (ExchangeService.createLimitOrder c3State 1 ⟨.buy, "MEM", 5, 100⟩).1 = .ok 0 ∧
    BalanceRepository.findBalance
      (ExchangeService.createLimitOrder c3State 1 ⟨.buy, "MEM", 5, 100⟩).2 1 "RUB" =
      some ⟨1000, 1000⟩ := by
  decide

/-- Claim C5 is contradicted by the code: after scenario S2, cancelling A1
releases the residual (quantity − filled) × price = 100 twice — once in the
service and once more in `OrderRepository.cancel_order` — and the earlier
fill had already been double-settled, so Alice's CASH row ends at
(total 700, reserved 150) instead of the claimed total 850 / reserved 0;
the order does become CANCELLED with filled = 3. -/
theorem c5_cancel_releases_twice :
    BalanceRepository.findBalance s3Final 1 "RUB" = some ⟨700, 150⟩ ∧
    OrderRepository.findOrder s3Final 1 =
      some ⟨1, 1, "MEM", .limit, .buy, some 50, 5, 3, .cancelled, 1⟩ := by
  decide

/-- Claim C6 fails on the code at a concrete input: deposit-seeded user 1
submits LIMIT BUY MEM 1 @ 50 (the engine reserves 100) and then withdraws
50, which the code allows because `withdraw` compares the amount only
against `total`; the resulting row has reserved 100 > total 50, so
`0 ≤ reserved ≤ total` does not hold after every completed operation. -/
theorem c6_counterexample :
    balInvHolds c6Final = false ∧
    BalanceRepository.findBalance c6Final 1 "RUB" = some ⟨50, 100⟩ := by
  decide

/-- Claim C7 fails on the code at a concrete input: with total 100 and
reserved 100 (available 0), `withdraw 50` succeeds even though
total − amount = 50 < reserved = 100, leaving the row at
(total 50, reserved 100) instead of failing with INSUFFICIENT_FUNDS. -/
theorem c7_counterexample :
    (BalanceService.withdraw c7State 1 "RUB" 50).1 = .ok () ∧
    BalanceRepository.findBalance
      (BalanceService.withdraw c7State 1 "RUB" 50).2 1 "RUB" = some ⟨50, 100⟩ := by
  decide

/-- Claim C8 fails on the code at a concrete input: two resting SELL orders
share price 100 and `created_at` 0, with order id 2 stored before id 1; the
`ORDER BY` of the match loop has no id tiebreak, so Alice's taker BUY fills
against id 2 first (store order), while the claimed lexicographic id
tiebreak would require id 1 first. -/
theorem c8_counterexample :
    c8Final.transactions.map Trade.sellerOrderId = [2] ∧
    OrderRepository.findOrder c8Final 1 =
      some ⟨1, 3, "MEM", .limit, .sell, some 100, 1, 0, .new, 0⟩ := by
  decide

/-- Claim C9 fails on the code at a concrete input: with eleven active SELL
LIMIT orders at distinct prices 100..110 and depth k = 25, the book is built
from only the first 10 rows `get_active_by_ticker` returns (its default
limit), so the level at price 110 is missing entirely even though an active
order with remaining quantity 1 rests there. -/
theorem c9_counterexample :
    askRemainingAt c9State "MEM" 110 = 1 ∧
    (ExchangeService.getOrderbook c9State "MEM" 25).askLevels.filter
      (fun l => l.price = 110) = [] ∧
    (ExchangeService.getOrderbook c9State "MEM" 25).askLevels.length = 10 := by
  decide

/-- Claim C10 is confirmed: cancelling any non-terminal MARKET BUY order
(whose price column is NULL and whose filled is below quantity) hits the
service's residual computation `(qty - filled) * order.price` with a NULL
price, i.e. the Python TypeError — modelled as the `typeErr` outcome — and
no state change is committed. -/
theorem c10_cancel_market_buy_type_error
    (s : ExchangeState) (uid oid : Nat) (o : Order)
    (hf : OrderRepository.findOrder s oid = some o)
    (hu : o.userId = uid) (_ht : o.otype = .market) (hd : o.direction = .buy)
    (hp : o.price = none) (hs : isActiveStatus o.status = true)
    (_hfq : o.filled < o.qty) :
    ExchangeService.cancelOrder s uid oid = (.error .typeErr, s) := by
  unfold ExchangeService.cancelOrder
  rw [hf]
  simp [hu, hd, hp, hs]

/-- Witness for `c10_cancel_market_buy_type_error` at the concrete state
`c10State`. -/
theorem c10_witness :
    OrderRepository.findOrder c10State 0 = some c10Order ∧
    c10Order.userId = 1 ∧ c10Order.otype = .market ∧
    c10Order.direction = .buy ∧ c10Order.price = none ∧
    isActiveStatus c10Order.status = true ∧ c10Order.filled < c10Order.qty ∧
    ExchangeService.cancelOrder c10State 1 0 = (.error .typeErr, c10State) :=
  ⟨by decide, by decide, by decide, by decide, by decide, by decide, by decide,
    c10_cancel_market_buy_type_error c10State 1 0 c10Order (by decide) (by decide)
      (by decide) (by decide) (by decide) (by decide) (by decide)⟩

/-- Amended claim C7: `withdraw(user, ticker, amount>0)` succeeds exactly
when the balance row exists and `total ≥ amount` — the reserved amount is
not consulted at all — and on a shortfall it fails with INSUFFICIENT_FUNDS
leaving the state unchanged. -/
theorem c7_withdraw_ignores_reserved
    (s : ExchangeState) (uid : Nat) (t : String) (amt : Int)
    (hamt : 0 < amt) (hu : BalanceService.userActive s uid = true)
    (hins : t = "RUB" ∨ t ∈ s.instruments) :
    ((BalanceService.withdraw s uid t amt).1 = .ok () ↔
      ∃ b, BalanceRepository.findBalance s uid t = some b ∧ amt ≤ b.amount) ∧
    ((BalanceService.withdraw s uid t amt).1 ≠ .ok () →
      (BalanceService.withdraw s uid t amt).1 = .error .insufficientFunds ∧
      (BalanceService.withdraw s uid t amt).2 = s) := by
  have h2 : ¬ (t ≠ "RUB" ∧ ¬ (t ∈ s.instruments)) := by
    rcases hins with h | h
    · exact fun hc => hc.1 h
    · exact fun hc => hc.2 h
  unfold BalanceService.withdraw
  rw [hu]
  simp only [if_neg h2, if_neg (by simp : ¬ ¬ (true = true)),
    if_neg (not_le.mpr hamt)]
  cases hb : BalanceRepository.findBalance s uid t with
  | none => simp
  | some b =>
      by_cases hlt : b.amount < amt
      · simp [hlt, not_le.mpr hlt]
      · simp [hlt, not_lt.mp hlt]

/-- Witness for `c7_withdraw_ignores_reserved` at `c7WState`. -/
theorem c7_witness :
    0 < (30 : Int) ∧ BalanceService.userActive c7WState 1 = true ∧
    ("RUB" = "RUB" ∨ "RUB" ∈ c7WState.instruments) ∧
    (((BalanceService.withdraw c7WState 1 "RUB" 30).1 = .ok () ↔
       ∃ b, BalanceRepository.findBalance c7WState 1 "RUB" = some b ∧ 30 ≤ b.amount) ∧
     ((BalanceService.withdraw c7WState 1 "RUB" 30).1 ≠ .ok () →
       (BalanceService.withdraw c7WState 1 "RUB" 30).1 = .error .insufficientFunds ∧
       (BalanceService.withdraw c7WState 1 "RUB" 30).2 = c7WState)) :=
  ⟨by decide, by decide, Or.inl rfl,
    c7_withdraw_ignores_reserved c7WState 1 "RUB" 30 (by decide) (by decide)
      (Or.inl rfl)⟩

/-! ## Lemmas about the level-grouping of `get_orderbook` -/

theorem upsertLevel_price_map (acc : List Level) (p q : Int) :
    (upsertLevel acc p q).map Level.price =
      if p ∈ acc.map Level.price then acc.map Level.price
      else acc.map Level.price ++ [p] := by
  induction acc with
  | nil => simp [upsertLevel]
  | cons lvl rest ih =>
      by_cases h : lvl.price = p
      · simp [upsertLevel, h]
      · simp only [upsertLevel, if_neg h, List.map_cons, ih, List.mem_cons]
        by_cases hm : p ∈ rest.map Level.price
        · simp [hm]
        · simp [hm, Ne.symm h]

theorem lvlQty_upsertLevel (acc : List Level) (p q x : Int) :
    lvlQty (upsertLevel acc p q) x =
      if x = p then lvlQty acc x + q else lvlQty acc x := by
  induction acc with
  | nil =>
      by_cases h : x = p
      · subst h; simp [upsertLevel, lvlQty]
      · have hpx : ¬ (p = x) := fun hc => h hc.symm
        simp [upsertLevel, lvlQty, hpx, h]
  | cons lvl rest ih =>
      by_cases h : lvl.price = p
      · subst h
        by_cases hx : x = lvl.price
        · subst hx; simp [upsertLevel, lvlQty]
        · have hlx : ¬ (lvl.price = x) := fun hc => hx hc.symm
          simp [upsertLevel, lvlQty, hlx, hx]
      · by_cases hlx : lvl.price = x
        · subst hlx
          simp [upsertLevel, lvlQty, h]
        · have hstep : lvlQty (lvl :: upsertLevel rest p q) x =
              lvlQty (upsertLevel rest p q) x := by
            simp [lvlQty, hlx]
          have hcons : lvlQty (lvl :: rest) x = lvlQty rest x := by
            simp [lvlQty, hlx]
          simp only [upsertLevel, if_neg h, hstep, hcons, ih]

theorem lvlQty_groupFrom (l : List Order) :
    ∀ (acc : List Level) (x : Int),
      lvlQty (groupFrom acc l) x =
        lvlQty acc x + ((l.filter (fun o => priceOf o = x)).map remainingOf).sum := by
  induction l with
  | nil => intro acc x; simp [groupFrom]
  | cons o rest ih =>
      intro acc x
      simp only [groupFrom, ih, lvlQty_upsertLevel]
      by_cases hx : priceOf o = x
      · subst hx
        simp [List.filter_cons]
        omega
      · have hx' : ¬ (x = priceOf o) := fun hc => hx hc.symm
        simp [List.filter_cons, hx, hx']

theorem nodupPrices_upsertLevel (acc : List Level) (p q : Int)
    (h : (acc.map Level.price).Nodup) :
    ((upsertLevel acc p q).map Level.price).Nodup := by
  rw [upsertLevel_price_map]
  by_cases hm : p ∈ acc.map Level.price
  · simpa [hm] using h
  · rw [if_neg hm, List.nodup_append]
    refine ⟨h, List.nodup_singleton _, ?_⟩
    intro a ha hb
    have hap : a = p := by simpa using hb
    subst hap
    exact hm ha

theorem nodupPrices_groupFrom (l : List Order) :
    ∀ acc : List Level, (acc.map Level.price).Nodup →
      ((groupFrom acc l).map Level.price).Nodup := by
  induction l with
  | nil => intro acc h; exact h
  | cons o rest ih =>
      intro acc h
      exact ih _ (nodupPrices_upsertLevel acc _ _ h)

theorem find?_level_of_mem (levels : List Level) (lvl : Level)
    (hnd : (levels.map Level.price).Nodup) (hm : lvl ∈ levels) :
    levels.find? (fun y => y.price == lvl.price) = some lvl := by
  induction levels with
  | nil => cases hm
  | cons a rest ih =>
      rcases List.mem_cons.mp hm with h | h
      · subst h; simp [List.find?]
      · have hne : ¬ (a.price = lvl.price) := by
          intro he
          have hmem : lvl.price ∈ rest.map Level.price := List.mem_map_of_mem _ h
          rw [List.map_cons, List.nodup_cons] at hnd
          exact hnd.1 (he ▸ hmem)
        rw [List.find?_cons_of_neg _ (by simpa using hne)]
        exact ih (by rw [List.map_cons, List.nodup_cons] at hnd; exact hnd.2) h

theorem lvlQty_of_mem (levels : List Level) (lvl : Level)
    (hnd : (levels.map Level.price).Nodup) (hm : lvl ∈ levels) :
    lvlQty levels lvl.price = lvl.qty := by
  rw [lvlQty, find?_level_of_mem levels lvl hnd hm]
  rfl

theorem groupFrom_pairwise (le lt : Int → Int → Prop)
    (hlt : ∀ a b, le a b → a ≠ b → lt a b) (l : List Order) :
    ∀ acc : List Level,
      List.Pairwise lt (acc.map Level.price) →
      (∀ x ∈ acc.map Level.price, ∀ o ∈ l, le x (priceOf o)) →
      List.Pairwise (fun a b => le (priceOf a) (priceOf b)) l →
      List.Pairwise lt ((groupFrom acc l).map Level.price) := by
  induction l with
  | nil => intro acc hacc _ _; exact hacc
  | cons o rest ih =>
      intro acc hacc hb hl
      rw [groupFrom]
      apply ih
      · rw [upsertLevel_price_map]
        by_cases hm : priceOf o ∈ acc.map Level.price
        · simpa [hm] using hacc
        · rw [if_neg hm, List.pairwise_append]
          refine ⟨hacc, List.pairwise_singleton _ _, ?_⟩
          intro a ha b hbm
          have hbp : b = priceOf o := by simpa using hbm
          subst hbp
          exact hlt a _ (hb a ha o (List.mem_cons_self _ _)) (fun he => hm (he ▸ ha))
      · intro x hx o' ho'
        rw [upsertLevel_price_map] at hx
        by_cases hm : priceOf o ∈ acc.map Level.price
        · rw [if_pos hm] at hx
          exact hb x hx o' (List.mem_cons_of_mem _ ho')
        · rw [if_neg hm] at hx
          rcases List.mem_append.mp hx with h | h
          · exact hb x h o' (List.mem_cons_of_mem _ ho')
          · have hxp : x = priceOf o := by simpa using h
            subst hxp
            exact (List.pairwise_cons.mp hl).1 o' ho'
      · exact (List.pairwise_cons.mp hl).2

theorem sortAsks_pairwise (l : List Order) :
    (sortAsks l).Pairwise (fun a b => priceOf a ≤ priceOf b) := by
  haveI : IsTotal Order (fun a b => priceOf a ≤ priceOf b) :=
    ⟨fun a b => le_total _ _⟩
  haveI : IsTrans Order (fun a b => priceOf a ≤ priceOf b) :=
    ⟨fun _ _ _ => le_trans⟩
  exact List.sorted_insertionSort _ l

theorem sortBids_pairwise (l : List Order) :
    (sortBids l).Pairwise (fun a b => priceOf b ≤ priceOf a) := by
  haveI : IsTotal Order (fun a b => priceOf b ≤ priceOf a) :=
    ⟨fun a b => (le_total _ _).symm⟩
  haveI : IsTrans Order (fun a b => priceOf b ≤ priceOf a) :=
    ⟨fun _ _ _ h1 h2 => le_trans h2 h1⟩
  exact List.sorted_insertionSort _ l

theorem groupLevels_qty_of_mem (l : List Order) (lvl : Level)
    (hm : lvl ∈ groupLevels l) :
    lvl.qty = ((l.filter (fun o => priceOf o = lvl.price)).map remainingOf).sum := by
  have hnd := nodupPrices_groupFrom l [] (by simp)
  have h1 := lvlQty_of_mem (groupLevels l) lvl hnd hm
  have h2 := lvlQty_groupFrom l [] lvl.price
  rw [groupLevels] at h1
  rw [h2] at h1
  simpa [lvlQty] using h1.symm

/-- Amended claim C9: `get_orderbook` aggregates not all active resting
LIMIT orders of the ticker but only the snapshot of at most 10 rows that
`get_active_by_ticker` returns with its default limit.  Within that
snapshot the claim's shape holds: levels are grouped by price, the qty of
every level equals the sum of (quantity − filled) over the snapshot's LIMIT
orders of that side at that price, bids are sorted by price strictly
descending, asks strictly ascending, and each side is truncated to at most
k levels. -/
theorem c9_book_aggregates_snapshot (s : ExchangeState) (ticker : String) (k : Nat) :
    (∀ lvl ∈ (ExchangeService.getOrderbook s ticker k).askLevels,
       lvl.qty = (((asksOf (OrderRepository.getActiveByTicker s ticker 10)).filter
         (fun o => priceOf o = lvl.price)).map remainingOf).sum) ∧
    (∀ lvl ∈ (ExchangeService.getOrderbook s ticker k).bidLevels,
       lvl.qty = (((bidsOf (OrderRepository.getActiveByTicker s ticker 10)).filter
         (fun o => priceOf o = lvl.price)).map remainingOf).sum) ∧
    (ExchangeService.getOrderbook s ticker k).askLevels.Pairwise
      (fun a b => a.price < b.price) ∧
    (ExchangeService.getOrderbook s ticker k).bidLevels.Pairwise
      (fun a b => b.price < a.price) ∧
    (ExchangeService.getOrderbook s ticker k).askLevels.length ≤ k ∧
    (ExchangeService.getOrderbook s ticker k).bidLevels.length ≤ k := by
  have hask : (ExchangeService.getOrderbook s ticker k).askLevels =
      (groupLevels (sortAsks (asksOf (OrderRepository.getActiveByTicker s ticker 10)))).take k := rfl
  have hbid : (ExchangeService.getOrderbook s ticker k).bidLevels =
      (groupLevels (sortBids (bidsOf (OrderRepository.getActiveByTicker s ticker 10)))).take k := rfl
  rw [hask, hbid]
  refine ⟨?_, ?_, ?_, ?_, List.length_take_le _ _, List.length_take_le _ _⟩
  · intro lvl hm
    have hm' := List.mem_of_mem_take hm
    have h1 := groupLevels_qty_of_mem _ lvl hm'
    have hperm := List.perm_insertionSort
      (fun a b : Order => priceOf a ≤ priceOf b)
      (asksOf (OrderRepository.getActiveByTicker s ticker 10))
    have := ((hperm.filter (fun o => priceOf o = lvl.price)).map remainingOf).sum_eq
    rw [h1]
    exact this
  · intro lvl hm
    have hm' := List.mem_of_mem_take hm
    have h1 := groupLevels_qty_of_mem _ lvl hm'
    have hperm := List.perm_insertionSort
      (fun a b : Order => priceOf b ≤ priceOf a)
      (bidsOf (OrderRepository.getActiveByTicker s ticker 10))
    have := ((hperm.filter (fun o => priceOf o = lvl.price)).map remainingOf).sum_eq
    rw [h1]
    exact this
  · apply List.Pairwise.sublist (List.take_sublist _ _)
    have h := groupFrom_pairwise (· ≤ ·) (· < ·)
      (fun a b h1 h2 => lt_of_le_of_ne h1 h2)
      (sortAsks (asksOf (OrderRepository.getActiveByTicker s ticker 10))) []
      (by simp) (by simp) (sortAsks_pairwise _)
    exact List.pairwise_map.mp h
  · apply List.Pairwise.sublist (List.take_sublist _ _)
    have h := groupFrom_pairwise (fun a b => b ≤ a) (fun a b => b < a)
      (fun a b h1 h2 => lt_of_le_of_ne h1 (fun he => h2 he.symm))
      (sortBids (bidsOf (OrderRepository.getActiveByTicker s ticker 10))) []
      (by simp) (by simp) (sortBids_pairwise _)
    exact List.pairwise_map.mp h

/-! ## Lemmas about the candidate ordering of the match loop -/

theorem keyLE_trans (a b c : Nat × Int × Nat) :
    ExchangeService.KeyLE a b → ExchangeService.KeyLE b c →
    ExchangeService.KeyLE a c := by
  rcases a with ⟨a1, a2, a3⟩
  rcases b with ⟨b1, b2, b3⟩
  rcases c with ⟨c1, c2, c3⟩
  simp only [ExchangeService.KeyLE]
  omega

theorem keyLE_total (a b : Nat × Int × Nat) :
    ExchangeService.KeyLE a b ∨ ExchangeService.KeyLE b a := by
  rcases a with ⟨a1, a2, a3⟩
  rcases b with ⟨b1, b2, b3⟩
  simp only [ExchangeService.KeyLE]
  omega

theorem sortCandidates_pairwise (isBuy : Bool) (l : List Order) :
    (ExchangeService.sortCandidates isBuy l).Pairwise
      (fun a b => ExchangeService.KeyLE
        (ExchangeService.candKey isBuy a) (ExchangeService.candKey isBuy b)) := by
  haveI : IsTrans Order (fun a b => ExchangeService.KeyLE
      (ExchangeService.candKey isBuy a) (ExchangeService.candKey isBuy b)) :=
    ⟨fun _ _ _ h1 h2 => keyLE_trans _ _ _ h1 h2⟩
  haveI : IsTotal Order (fun a b => ExchangeService.KeyLE
      (ExchangeService.candKey isBuy a) (ExchangeService.candKey isBuy b)) :=
    ⟨fun a b => keyLE_total _ _⟩
  exact List.sorted_insertionSort _ l

/-- Amended claim C8: the match loop consumes candidates sorted by price
priority (ascending price for a taker BUY, descending for a taker SELL) with
ties broken by `created_at` ascending; the `ORDER BY` has no further id
tiebreak, so orders that tie on both price and `created_at` stay in store
order. -/
theorem c8_match_priority (isBuy : Bool) (l : List Order)
    (hp : ∀ o ∈ l, o.price.isSome = true) :
    (ExchangeService.sortCandidates isBuy l).Pairwise (fun c1 c2 =>
      (if isBuy then priceOf c1 < priceOf c2 else priceOf c2 < priceOf c1) ∨
      (priceOf c1 = priceOf c2 ∧ c1.createdAt ≤ c2.createdAt)) := by
  have hs := sortCandidates_pairwise isBuy l
  have hperm := List.perm_insertionSort
    (fun a b => ExchangeService.KeyLE
      (ExchangeService.candKey isBuy a) (ExchangeService.candKey isBuy b)) l
  apply hs.imp_of_mem
  intro a b ha hb hr
  have hpa : a.price.isSome = true := hp a (hperm.mem_iff.mp ha)
  have hpb : b.price.isSome = true := hp b (hperm.mem_iff.mp hb)
  cases isBuy with
  | true =>
      simp only [ExchangeService.candKey, hpa, hpb, if_pos, if_true,
        ExchangeService.KeyLE] at hr
      simp only [if_true]
      omega
  | false =>
      simp only [ExchangeService.candKey, hpa, hpb,
        ExchangeService.KeyLE] at hr
      simp only [Bool.false_eq_true, if_false] at hr ⊢
      omega

/-! ## State-component lemmas: balance operations leave orders (and the id
source) untouched; order operations leave balances untouched, etc. -/

theorem setBalanceRow_orders (s : ExchangeState) (u : Nat) (t : String) (b : Balance) :
    (BalanceRepository.setBalanceRow s u t b).orders = s.orders := by
  unfold BalanceRepository.setBalanceRow
  cases BalanceRepository.findBalance s u t <;> rfl

theorem setBalanceRow_nextOrderId (s : ExchangeState) (u : Nat) (t : String) (b : Balance) :
    (BalanceRepository.setBalanceRow s u t b).nextOrderId = s.nextOrderId := by
  unfold BalanceRepository.setBalanceRow
  cases BalanceRepository.findBalance s u t <;> rfl

theorem setBalanceRow_time (s : ExchangeState) (u : Nat) (t : String) (b : Balance) :
    (BalanceRepository.setBalanceRow s u t b).time = s.time := by
  unfold BalanceRepository.setBalanceRow
  cases BalanceRepository.findBalance s u t <;> rfl

theorem lockBalance_orders (s : ExchangeState) (u : Nat) (t : String) (amt : Int) :
    (BalanceRepository.lockBalance s u t amt).2.orders = s.orders := by
  simp only [BalanceRepository.lockBalance]
  split
  · rfl
  · exact setBalanceRow_orders _ _ _ _

theorem lockBalance_nextOrderId (s : ExchangeState) (u : Nat) (t : String) (amt : Int) :
    (BalanceRepository.lockBalance s u t amt).2.nextOrderId = s.nextOrderId := by
  simp only [BalanceRepository.lockBalance]
  split
  · rfl
  · exact setBalanceRow_nextOrderId _ _ _ _

theorem lockBalance_time (s : ExchangeState) (u : Nat) (t : String) (amt : Int) :
    (BalanceRepository.lockBalance s u t amt).2.time = s.time := by
  simp only [BalanceRepository.lockBalance]
  split
  · rfl
  · exact setBalanceRow_time _ _ _ _

theorem unlockBalance_orders (s : ExchangeState) (u : Nat) (t : String) (amt : Int) :
    (BalanceRepository.unlockBalance s u t amt).2.orders = s.orders := by
  unfold BalanceRepository.unlockBalance
  split
  · rfl
  · split
    · rfl
    · exact setBalanceRow_orders _ _ _ _

theorem unlockAndSubtractBalance_orders (s : ExchangeState) (u : Nat) (t : String)
    (amt : Int) :
    (BalanceRepository.unlockAndSubtractBalance s u t amt).2.orders = s.orders := by
  unfold BalanceRepository.unlockAndSubtractBalance
  split
  · rfl
  · split
    · rfl
    · exact setBalanceRow_orders _ _ _ _

theorem updateBalance_orders (s : ExchangeState) (u : Nat) (t : String) (amt : Int) :
    (BalanceRepository.updateBalance s u t amt).orders = s.orders := by
  unfold BalanceRepository.updateBalance
  split
  · exact setBalanceRow_orders _ _ _ _
  · rfl

theorem applyFillBalances_orders (s : ExchangeState) (isBuy : Bool)
    (tu cu : Nat) (tk : String) (q p : Int) :
    (ExchangeService.applyFillBalances s isBuy tu cu tk q p).orders = s.orders := by
  unfold ExchangeService.applyFillBalances
  split <;>
    simp only [updateBalance_orders, unlockAndSubtractBalance_orders]

theorem transactionCreate_orders (s : ExchangeState) (tk : String) (amount price : Int)
    (buyerOid sellerOid : Nat) :
    (TransactionRepository.create s tk amount price buyerOid sellerOid).orders =
      s.orders := by
  simp only [TransactionRepository.create]
  split <;> simp only [updateBalance_orders]

/-! ## The remaining-quantity recursion of pre-walk and match loop -/

theorem consumeQty_of_nonpos (qs : List Int) :
    ∀ r : Int, r ≤ 0 → consumeQty r qs = r := by
  induction qs with
  | nil => intro r _; rfl
  | cons q rest ih =>
      intro r hr
      simp only [consumeQty, List.foldl_cons, if_pos hr]
      exact ih r hr

theorem consumeQty_eq_max (qs : List Int) :
    ∀ r : Int, 0 ≤ r → (∀ q ∈ qs, 0 ≤ q) →
      consumeQty r qs = max 0 (r - qs.sum) := by
  induction qs with
  | nil => intro r hr _; simp [consumeQty]; omega
  | cons q rest ih =>
      intro r hr hqs
      have hq : 0 ≤ q := hqs q (List.mem_cons_self _ _)
      have hrest : ∀ x ∈ rest, 0 ≤ x := fun x hx => hqs x (List.mem_cons_of_mem _ hx)
      have hsum : 0 ≤ rest.sum := List.sum_nonneg hrest
      simp only [consumeQty, List.foldl_cons] at *
      by_cases h : r ≤ 0
      · rw [if_pos h]
        have := consumeQty_of_nonpos rest r h
        simp only [consumeQty] at this
        rw [this, List.sum_cons]
        omega
      · rw [if_neg h]
        have := ih (r - min r q) (by omega) hrest
        rw [this, List.sum_cons]
        omega

/-- The pre-walk's remaining quantity is `consumeQty` over the level
quantities (the accumulated cost does not feed back into it). -/
theorem prewalk_snd (levels : List Level) :
    ∀ acc : Int × Int,
      (levels.foldl
        (fun acc lvl =>
          if acc.2 ≤ 0 then acc
          else (acc.1 + min acc.2 lvl.qty * lvl.price, acc.2 - min acc.2 lvl.qty))
        acc).2 = consumeQty acc.2 (levels.map Level.qty) := by
  induction levels with
  | nil => intro acc; rfl
  | cons lvl rest ih =>
      intro acc
      simp only [List.foldl_cons, List.map_cons, consumeQty, List.foldl_cons]
      by_cases h : acc.2 ≤ 0
      · rw [if_pos h, if_pos h]
        exact ih acc
      · rw [if_neg h, if_neg h]
        have := ih (acc.1 + min acc.2 lvl.qty * lvl.price, acc.2 - min acc.2 lvl.qty)
        simpa [consumeQty] using this

theorem prewalk_remaining (levels : List Level) (qty : Int) :
    (ExchangeService.prewalk levels qty).2 = consumeQty qty (levels.map Level.qty) := by
  unfold ExchangeService.prewalk
  exact prewalk_snd levels (0, qty)

/-- The match loop's remaining and filled accumulators: remaining follows
`consumeQty` over the candidates' remaining quantities, and the filled
accumulator absorbs exactly what remaining loses.  Both are independent of
the state being threaded through. -/
theorem matchLoop_counters (taker : Order) (isBuy : Bool) (cands : List Order) :
    ∀ (s : ExchangeState) (r f : Int),
      (ExchangeService.matchLoop taker isBuy cands s r f).2.1 =
        consumeQty r (cands.map remainingOf) ∧
      (ExchangeService.matchLoop taker isBuy cands s r f).2.2 =
        f + (r - consumeQty r (cands.map remainingOf)) := by
  induction cands with
  | nil => intro s r f; constructor <;> simp [ExchangeService.matchLoop, consumeQty]
  | cons c rest ih =>
      intro s r f
      by_cases h : r ≤ 0
      · have hc : consumeQty r ((c :: rest).map remainingOf) = r :=
          consumeQty_of_nonpos _ r h
        rw [hc]
        constructor <;> simp [ExchangeService.matchLoop, if_pos h]
      · have hstep : consumeQty r ((c :: rest).map remainingOf) =
            consumeQty (r - min r (remainingOf c)) (rest.map remainingOf) := by
          simp [consumeQty, if_neg h]
        rw [hstep]
        have hrc : remainingOf c = c.qty - c.filled := rfl
        rw [hrc]
        constructor
        · simp only [ExchangeService.matchLoop, if_neg h]
          rw [(ih _ _ _).1]
        · simp only [ExchangeService.matchLoop, if_neg h]
          rw [(ih _ _ _).2]
          ring

/-! ## How the match loop rewrites the taker's order row -/

theorem find?_setFill_self (orders : List Order) (i : Nat) (f : Int)
    (st : OrderStatus) :
    (ExchangeService.setFill orders i f st).find? (fun o => o.id == i) =
      (orders.find? (fun o => o.id == i)).map
        (fun o => { o with filled := f, status := st }) := by
  induction orders with
  | nil => rfl
  | cons a rest ih =>
      by_cases h : a.id = i
      · simp only [ExchangeService.setFill, List.map_cons, if_pos h]
        rw [List.find?_cons_of_pos _ (by simp [h]),
          List.find?_cons_of_pos _ (by simp [h])]
        rfl
      · simp only [ExchangeService.setFill, List.map_cons, if_neg h]
        rw [List.find?_cons_of_neg _ (by simp [h]),
          List.find?_cons_of_neg _ (by simp [h])]
        exact ih

theorem find?_setFill_other (orders : List Order) (i j : Nat) (f : Int)
    (st : OrderStatus) (hij : j ≠ i) :
    (ExchangeService.setFill orders i f st).find? (fun o => o.id == j) =
      orders.find? (fun o => o.id == j) := by
  induction orders with
  | nil => rfl
  | cons a rest ih =>
      by_cases h : a.id = i
      · have haj : ¬ (a.id = j) := fun hc => hij (hc.symm.trans h)
        simp only [ExchangeService.setFill, List.map_cons, if_pos h]
        rw [List.find?_cons_of_neg _ (by simp [haj]),
          List.find?_cons_of_neg _ (by simp [haj])]
        exact ih
      · simp only [ExchangeService.setFill, List.map_cons, if_neg h]
        by_cases haj : a.id = j
        · rw [List.find?_cons_of_pos _ (by simp [haj]),
            List.find?_cons_of_pos _ (by simp [haj])]
        · rw [List.find?_cons_of_neg _ (by simp [haj]),
            List.find?_cons_of_neg _ (by simp [haj])]
          exact ih

theorem matchLoop_remaining (taker : Order) (isBuy : Bool) (cands : List Order)
    (s : ExchangeState) (r f : Int) :
    (ExchangeService.matchLoop taker isBuy cands s r f).2.1 =
      consumeQty r (cands.map remainingOf) :=
  (matchLoop_counters taker isBuy cands s r f).1

theorem matchLoop_filled (taker : Order) (isBuy : Bool) (cands : List Order)
    (s : ExchangeState) (r f : Int) :
    (ExchangeService.matchLoop taker isBuy cands s r f).2.2 =
      f + (r - consumeQty r (cands.map remainingOf)) :=
  (matchLoop_counters taker isBuy cands s r f).2

theorem findOrder_withOrders (s : ExchangeState) (l : List Order) (oid : Nat) :
    OrderRepository.findOrder { s with orders := l } oid =
      l.find? (fun o => o.id == oid) := rfl

theorem findOrder_mk (us : List (Nat × Bool)) (ins : List String)
    (bals : List ((Nat × String) × Balance)) (l : List Order) (ts : List Trade)
    (nid t oidv : Nat) :
    OrderRepository.findOrder ⟨us, ins, bals, l, ts, nid, t⟩ oidv =
      l.find? (fun o => o.id == oidv) := rfl

theorem findOrder_transactionCreate (st : ExchangeState) (tk : String)
    (am pr : Int) (b1 b2 oid : Nat) :
    OrderRepository.findOrder (TransactionRepository.create st tk am pr b1 b2) oid =
      OrderRepository.findOrder st oid := by
  unfold OrderRepository.findOrder
  rw [transactionCreate_orders]

theorem findOrder_applyFillBalances (st : ExchangeState) (b : Bool)
    (tu cu : Nat) (tk : String) (q p : Int) (oid : Nat) :
    OrderRepository.findOrder (ExchangeService.applyFillBalances st b tu cu tk q p) oid =
      OrderRepository.findOrder st oid := by
  unfold OrderRepository.findOrder
  rw [applyFillBalances_orders]

theorem fillUpd_comp (taker : Order) (g1 g2 : Int) :
    (fillUpd taker g2) ∘ (fillUpd taker g1) = fillUpd taker g2 := by
  funext o
  rfl

/-- After the whole match loop, the taker's row carries the final filled
accumulator and the status derived from it — provided the loop ran at all
(positive remaining, nonempty candidates); with no iterations the row is
untouched. -/
theorem matchLoop_taker_entry (taker : Order) (isBuy : Bool) (cands : List Order) :
    ∀ (s : ExchangeState) (r f : Int),
      (∀ c ∈ cands, c.id ≠ taker.id) →
      OrderRepository.findOrder (ExchangeService.matchLoop taker isBuy cands s r f).1
          taker.id =
        (if 0 < r ∧ cands ≠ [] then
          (OrderRepository.findOrder s taker.id).map
            (fillUpd taker (ExchangeService.matchLoop taker isBuy cands s r f).2.2)
        else OrderRepository.findOrder s taker.id) := by
  induction cands with
  | nil =>
      intro s r f _
      simp [ExchangeService.matchLoop]
  | cons c rest ih =>
      intro s r f hid
      have hcid : c.id ≠ taker.id := hid c (List.mem_cons_self _ _)
      have hids : ∀ x ∈ rest, x.id ≠ taker.id :=
        fun x hx => hid x (List.mem_cons_of_mem _ hx)
      have ih' := fun (s' : ExchangeState) (r' f' : Int) => ih s' r' f' hids
      by_cases hr : r ≤ 0
      · simp only [ExchangeService.matchLoop, if_pos hr]
        rw [if_neg (by intro hc; exact absurd hc.1 (not_lt.mpr hr))]
      · rw [if_pos ⟨not_le.mp hr, by simp⟩]
        simp only [ExchangeService.matchLoop, if_neg hr]
        rw [ih', findOrder_transactionCreate, findOrder_applyFillBalances,
          findOrder_withOrders,
          find?_setFill_other _ _ _ _ _ (fun hc => hcid hc.symm),
          find?_setFill_self, matchLoop_filled]
        have hfind : (s.orders.find? (fun o => o.id == taker.id)) =
            OrderRepository.findOrder s taker.id := rfl
        rw [hfind]
        set r1 := r - min r (c.qty - c.filled) with hr1
        set f1 := f + min r (c.qty - c.filled) with hf1
        by_cases hcond : 0 < r1 ∧ rest ≠ []
        · rw [if_pos hcond, Option.map_map]
          exact congrArg
            (fun g => Option.map g (OrderRepository.findOrder s taker.id))
            (funext fun o => rfl)
        · rw [if_neg hcond]
          have hcons : consumeQty r1 (rest.map remainingOf) = r1 := by
            rcases Decidable.em (rest = []) with hrest | hrest
            · subst hrest; rfl
            · have : r1 ≤ 0 := by
                rcases not_and_or.mp hcond with h | h
                · exact not_lt.mp h
                · exact absurd hrest h
              exact consumeQty_of_nonpos _ _ this
          rw [hcons, sub_self, add_zero]
          exact congrArg
            (fun g => Option.map g (OrderRepository.findOrder s taker.id))
            (funext fun o => rfl)

/-! ## Sum and length bookkeeping for the liquidity argument -/

theorem upsertLevel_qty_sum (acc : List Level) (p q : Int) :
    ((upsertLevel acc p q).map Level.qty).sum = (acc.map Level.qty).sum + q := by
  induction acc with
  | nil => simp [upsertLevel]
  | cons lvl rest ih =>
      by_cases h : lvl.price = p
      · simp [upsertLevel, h]
        ring
      · simp only [upsertLevel, if_neg h, List.map_cons, List.sum_cons, ih]
        ring

theorem groupFrom_qty_sum (l : List Order) :
    ∀ acc : List Level, ((groupFrom acc l).map Level.qty).sum =
      (acc.map Level.qty).sum + (l.map remainingOf).sum := by
  induction l with
  | nil => intro acc; simp [groupFrom]
  | cons o rest ih =>
      intro acc
      simp only [groupFrom, ih, upsertLevel_qty_sum, List.map_cons, List.sum_cons]
      ring

theorem upsertLevel_length_le (acc : List Level) (p q : Int) :
    (upsertLevel acc p q).length ≤ acc.length + 1 := by
  induction acc with
  | nil => simp [upsertLevel]
  | cons lvl rest ih =>
      by_cases h : lvl.price = p
      · simp [upsertLevel, h]
      · simp only [upsertLevel, if_neg h, List.length_cons]
        omega

theorem groupFrom_length_le (l : List Order) :
    ∀ acc : List Level, (groupFrom acc l).length ≤ acc.length + l.length := by
  induction l with
  | nil => intro acc; simp [groupFrom]
  | cons o rest ih =>
      intro acc
      have h1 := ih (upsertLevel acc (priceOf o) (remainingOf o))
      have h2 := upsertLevel_length_le acc (priceOf o) (remainingOf o)
      simp only [groupFrom, List.length_cons]
      omega

theorem sum_map_sublist_le (f : Order → Int) {l₁ l₂ : List Order}
    (h : l₁.Sublist l₂) (hf : ∀ o ∈ l₂, 0 ≤ f o) :
    (l₁.map f).sum ≤ (l₂.map f).sum := by
  induction h with
  | slnil => exact le_refl _
  | cons a ha ih =>
      have := ih (fun o ho => hf o (List.mem_cons_of_mem _ ho))
      have hfa := hf a (List.mem_cons_self _ _)
      simp only [List.map_cons, List.sum_cons]
      omega
  | cons₂ a ha ih =>
      have := ih (fun o ho => hf o (List.mem_cons_of_mem _ ho))
      simp only [List.map_cons, List.sum_cons]
      omega

theorem sum_filter_le_of_imp (f : Order → Int) (p q : Order → Bool)
    (l : List Order) (hf : ∀ o ∈ l, 0 ≤ f o)
    (himp : ∀ o ∈ l, p o = true → q o = true) :
    ((l.filter p).map f).sum ≤ ((l.filter q).map f).sum := by
  induction l with
  | nil => exact le_refl _
  | cons a rest ih =>
      have ih' := ih (fun o ho => hf o (List.mem_cons_of_mem _ ho))
        (fun o ho hp => himp o (List.mem_cons_of_mem _ ho) hp)
      have hfa := hf a (List.mem_cons_self _ _)
      by_cases hp : p a = true
      · have hq := himp a (List.mem_cons_self _ _) hp
        simp only [List.filter_cons, hp, hq, if_pos, List.map_cons, List.sum_cons]
        omega
      · by_cases hq : q a = true
        · simp only [List.filter_cons, hq, if_pos]
          simp only [List.filter_cons] at *
          rw [if_neg (by simpa using hp)]
          simp only [List.map_cons, List.sum_cons]
          omega
        · simp only [List.filter_cons]
          rw [if_neg (by simpa using hp), if_neg (by simpa using hq)]
          exact ih'

theorem sortCandidates_perm (isBuy : Bool) (l : List Order) :
    (ExchangeService.sortCandidates isBuy l).Perm l :=
  List.perm_insertionSort _ l

theorem candFilter_id_ne (taker : Order) (c : Order)
    (hc : ExchangeService.candFilter taker c = true) : c.id ≠ taker.id := by
  simp only [ExchangeService.candFilter, Bool.and_eq_true, bne_iff_ne] at hc
  exact hc.1.2

/-- If the taker found for `_match_orders` is a fresh NEW order whose
opposite-side candidates jointly carry at least its quantity, the loop fills
it completely: afterwards its row is EXECUTED with `filled = qty`. -/
theorem matchOrders_executes (s2 : ExchangeState) (o : Order)
    (hfind : OrderRepository.findOrder s2 o.id = some o)
    (hst : o.status = .new) (hf0 : o.filled = 0) (hq : 0 < o.qty)
    (hsum : o.qty ≤
      ((s2.orders.filter (ExchangeService.candFilter o)).map remainingOf).sum)
    (hnn : ∀ c ∈ s2.orders.filter (ExchangeService.candFilter o),
      0 ≤ remainingOf c) :
    ∃ u, OrderRepository.findOrder (ExchangeService.matchOrders s2 o.id) o.id =
        some u ∧ u.status = .executed ∧ u.filled = u.qty := by
  have hperm := sortCandidates_perm (o.direction = Direction.buy)
    (s2.orders.filter (ExchangeService.candFilter o))
  have hflne : s2.orders.filter (ExchangeService.candFilter o) ≠ [] := by
    intro h
    rw [h] at hsum
    simp at hsum
    omega
  have hcne : ExchangeService.sortCandidates (o.direction = Direction.buy)
      (s2.orders.filter (ExchangeService.candFilter o)) ≠ [] := by
    intro h
    apply hflne
    have hp2 := hperm
    rw [h] at hp2
    exact (List.Perm.eq_nil hp2.symm)
  have hids : ∀ c ∈ ExchangeService.sortCandidates (o.direction = Direction.buy)
      (s2.orders.filter (ExchangeService.candFilter o)), c.id ≠ o.id := by
    intro c hc
    have hmem := hperm.mem_iff.mp hc
    exact candFilter_id_ne o c (List.of_mem_filter hmem)
  have hnn' : ∀ q ∈ (ExchangeService.sortCandidates (o.direction = Direction.buy)
      (s2.orders.filter (ExchangeService.candFilter o))).map remainingOf, 0 ≤ q := by
    intro q hqm
    rcases List.mem_map.mp hqm with ⟨c, hc, rfl⟩
    exact hnn c (hperm.mem_iff.mp hc)
  have hsum' : o.qty ≤ ((ExchangeService.sortCandidates (o.direction = Direction.buy)
      (s2.orders.filter (ExchangeService.candFilter o))).map remainingOf).sum := by
    rw [(hperm.map remainingOf).sum_eq]
    exact hsum
  have hr0 : o.qty - o.filled = o.qty := by rw [hf0]; ring
  have hconsume : consumeQty (o.qty - o.filled)
      ((ExchangeService.sortCandidates (o.direction = Direction.buy)
        (s2.orders.filter (ExchangeService.candFilter o))).map remainingOf) = 0 := by
    rw [hr0, consumeQty_eq_max _ o.qty (le_of_lt hq) hnn']
    omega
  have hF : (ExchangeService.matchLoop o (o.direction = Direction.buy)
      (ExchangeService.sortCandidates (o.direction = Direction.buy)
        (s2.orders.filter (ExchangeService.candFilter o)))
      s2 (o.qty - o.filled) o.filled).2.2 = o.qty := by
    rw [matchLoop_filled, hconsume, hf0]
    ring
  have hentry := matchLoop_taker_entry o (o.direction = Direction.buy)
    (ExchangeService.sortCandidates (o.direction = Direction.buy)
      (s2.orders.filter (ExchangeService.candFilter o)))
    s2 (o.qty - o.filled) o.filled hids
  rw [if_pos ⟨by omega, hcne⟩, hfind, hF] at hentry
  have hrun : ExchangeService.matchOrders s2 o.id =
      (ExchangeService.matchLoop o (o.direction = Direction.buy)
        (ExchangeService.sortCandidates (o.direction = Direction.buy)
          (s2.orders.filter (ExchangeService.candFilter o)))
        s2 (o.qty - o.filled) o.filled).1 := by
    unfold ExchangeService.matchOrders
    rw [hfind]
    simp only [hst]
    rw [if_neg (by simp)]
    rw [if_neg (by simpa [List.isEmpty_iff] using hcne)]
  rw [hrun, hentry]
  refine ⟨_, rfl, ?_, ?_⟩
  · simp [fillUpd, ExchangeService.statusFor]
  · simp [fillUpd]

theorem find?_append_new (l : List Order) (o : Order)
    (h : ∀ x ∈ l, x.id ≠ o.id) :
    (l ++ [o]).find? (fun x => x.id == o.id) = some o := by
  induction l with
  | nil => simp [List.find?]
  | cons a rest ih =>
      rw [List.cons_append,
        List.find?_cons_of_neg _ (by simp [h a (List.mem_cons_self _ _)])]
      exact ih (fun x hx => h x (List.mem_cons_of_mem _ hx))

theorem sortAsks_perm (l : List Order) : (sortAsks l).Perm l :=
  List.perm_insertionSort _ l

theorem sortBids_perm (l : List Order) : (sortBids l).Perm l :=
  List.perm_insertionSort _ l

theorem groupLevels_qty_sum (l : List Order) :
    ((groupLevels l).map Level.qty).sum = (l.map remainingOf).sum := by
  have := groupFrom_qty_sum l []
  simpa [groupLevels] using this

theorem groupLevels_length_le (l : List Order) :
    (groupLevels l).length ≤ l.length := by
  have := groupFrom_length_le l []
  simpa [groupLevels] using this

theorem mem_active_subset (s : ExchangeState) (t : String) (n : Nat) :
    ∀ x ∈ OrderRepository.getActiveByTicker s t n, x ∈ s.orders := by
  intro x hx
  exact List.mem_of_mem_filter (List.mem_of_mem_take hx)

theorem groupLevels_qty_nonneg (l : List Order)
    (h : ∀ x ∈ l, 0 ≤ remainingOf x) :
    ∀ q ∈ (groupLevels l).map Level.qty, 0 ≤ q := by
  intro q hq
  rcases List.mem_map.mp hq with ⟨lvl, hlvl, rfl⟩
  rw [groupLevels_qty_of_mem l lvl hlvl]
  apply List.sum_nonneg
  intro y hy
  rcases List.mem_map.mp hy with ⟨x, hx, rfl⟩
  exact h x (List.mem_of_mem_filter hx)

/-- When the pre-walk of a MARKET BUY succeeds against the book snapshot,
the full candidate set of the match loop carries at least the order's
quantity. -/
theorem ask_liquidity (s : ExchangeState) (b : MarketOrderBody) (newo : Order)
    (hwf : ∀ x ∈ s.orders, x.filled ≤ x.qty ∧ x.id < s.nextOrderId)
    (hno : newo.id = s.nextOrderId) (hnt : newo.ticker = b.ticker)
    (hnd : newo.direction = .buy) (hnty : newo.otype = .market)
    (hq : 0 < b.qty)
    (hpre : (ExchangeService.prewalk
      (ExchangeService.getOrderbook s b.ticker 10).askLevels b.qty).2 ≤ 0) :
    b.qty ≤
      ((s.orders.filter (ExchangeService.candFilter newo)).map remainingOf).sum := by
  have hrem_nonneg : ∀ x ∈ s.orders, 0 ≤ remainingOf x := by
    intro x hx
    have := (hwf x hx).1
    unfold remainingOf
    omega
  have hsnap_mem := mem_active_subset s b.ticker 10
  have hasks_mem : ∀ x ∈ asksOf (OrderRepository.getActiveByTicker s b.ticker 10),
      x ∈ s.orders :=
    fun x hx => hsnap_mem x (List.mem_of_mem_filter hx)
  have hsorted_mem : ∀ x ∈ sortAsks (asksOf (OrderRepository.getActiveByTicker s b.ticker 10)),
      x ∈ s.orders :=
    fun x hx => hasks_mem x ((sortAsks_perm _).mem_iff.mp hx)
  have hlen : (groupLevels (sortAsks (asksOf
      (OrderRepository.getActiveByTicker s b.ticker 10)))).length ≤ 10 := by
    have h1 := groupLevels_length_le (sortAsks (asksOf
      (OrderRepository.getActiveByTicker s b.ticker 10)))
    have h2 := (sortAsks_perm (asksOf
      (OrderRepository.getActiveByTicker s b.ticker 10))).length_eq
    have h3 : (asksOf (OrderRepository.getActiveByTicker s b.ticker 10)).length ≤
        (OrderRepository.getActiveByTicker s b.ticker 10).length :=
      List.length_filter_le _ _
    have h4 : (OrderRepository.getActiveByTicker s b.ticker 10).length ≤ 10 := by
      unfold OrderRepository.getActiveByTicker
      exact List.length_take_le _ _
    omega
  have hlevels : (ExchangeService.getOrderbook s b.ticker 10).askLevels =
      groupLevels (sortAsks (asksOf (OrderRepository.getActiveByTicker s b.ticker 10))) := by
    show (groupLevels (sortAsks (asksOf
      (OrderRepository.getActiveByTicker s b.ticker 10)))).take 10 = _
    exact List.take_of_length_le hlen
  have hlvl_nonneg : ∀ q ∈ ((ExchangeService.getOrderbook s b.ticker 10).askLevels).map
      Level.qty, 0 ≤ q := by
    rw [hlevels]
    exact groupLevels_qty_nonneg _ (fun x hx => hrem_nonneg x (hsorted_mem x hx))
  have hsum_lvl : b.qty ≤
      (((ExchangeService.getOrderbook s b.ticker 10).askLevels).map Level.qty).sum := by
    rw [prewalk_remaining] at hpre
    rw [consumeQty_eq_max _ _ (le_of_lt hq) hlvl_nonneg] at hpre
    omega
  have hsum_asks : b.qty ≤
      ((asksOf (OrderRepository.getActiveByTicker s b.ticker 10)).map remainingOf).sum := by
    rw [hlevels, groupLevels_qty_sum, ((sortAsks_perm _).map remainingOf).sum_eq]
      at hsum_lvl
    exact hsum_lvl
  have hsub : (asksOf (OrderRepository.getActiveByTicker s b.ticker 10)).Sublist
      (s.orders.filter (fun o =>
        (o.direction == Direction.sell && o.otype == OrderType.limit) &&
        (o.ticker == b.ticker && isActiveStatus o.status))) := by
    have h1 : (OrderRepository.getActiveByTicker s b.ticker 10).Sublist
        (s.orders.filter (fun o => o.ticker == b.ticker && isActiveStatus o.status)) := by
      unfold OrderRepository.getActiveByTicker
      exact List.take_sublist _ _
    have h2 := List.Sublist.filter
      (fun o => o.direction == Direction.sell && o.otype == OrderType.limit) h1
    rw [List.filter_filter] at h2
    exact h2
  have hstep1 : ((asksOf (OrderRepository.getActiveByTicker s b.ticker 10)).map
      remainingOf).sum ≤
      ((s.orders.filter (fun o =>
        (o.direction == Direction.sell && o.otype == OrderType.limit) &&
        (o.ticker == b.ticker && isActiveStatus o.status))).map remainingOf).sum := by
    apply sum_map_sublist_le _ hsub
    intro x hx
    exact hrem_nonneg x (List.mem_of_mem_filter hx)
  have hstep2 : ((s.orders.filter (fun o =>
      (o.direction == Direction.sell && o.otype == OrderType.limit) &&
      (o.ticker == b.ticker && isActiveStatus o.status))).map remainingOf).sum ≤
      ((s.orders.filter (ExchangeService.candFilter newo)).map remainingOf).sum := by
    apply sum_filter_le_of_imp _ _ _ _ hrem_nonneg
    intro x hx hpq
    simp only [Bool.and_eq_true, beq_iff_eq] at hpq
    have hxid : x.id ≠ newo.id := by
      have := (hwf x hx).2
      omega
    simp only [ExchangeService.candFilter, hnt, hnd, hnty,
      ExchangeService.counterOf, Bool.and_eq_true, bne_iff_ne, beq_iff_eq]
    refine ⟨⟨⟨⟨hpq.2.1, hpq.1.1⟩, ?_⟩, hxid⟩, ?_⟩
    · exact hpq.2.2
    · simp
  omega

/-- When the liquidity check of a MARKET SELL succeeds against the book
snapshot, the full candidate set of the match loop carries at least the
order's quantity. -/
theorem bid_liquidity (s : ExchangeState) (b : MarketOrderBody) (newo : Order)
    (hwf : ∀ x ∈ s.orders, x.filled ≤ x.qty ∧ x.id < s.nextOrderId)
    (hno : newo.id = s.nextOrderId) (hnt : newo.ticker = b.ticker)
    (hnd : newo.direction = .sell) (hnty : newo.otype = .market)
    (hliq : b.qty ≤
      (((ExchangeService.getOrderbook s b.ticker 10).bidLevels).map Level.qty).sum) :
    b.qty ≤
      ((s.orders.filter (ExchangeService.candFilter newo)).map remainingOf).sum := by
  have hrem_nonneg : ∀ x ∈ s.orders, 0 ≤ remainingOf x := by
    intro x hx
    have := (hwf x hx).1
    unfold remainingOf
    omega
  have hsnap_mem := mem_active_subset s b.ticker 10
  have hlen : (groupLevels (sortBids (bidsOf
      (OrderRepository.getActiveByTicker s b.ticker 10)))).length ≤ 10 := by
    have h1 := groupLevels_length_le (sortBids (bidsOf
      (OrderRepository.getActiveByTicker s b.ticker 10)))
    have h2 := (sortBids_perm (bidsOf
      (OrderRepository.getActiveByTicker s b.ticker 10))).length_eq
    have h3 : (bidsOf (OrderRepository.getActiveByTicker s b.ticker 10)).length ≤
        (OrderRepository.getActiveByTicker s b.ticker 10).length :=
      List.length_filter_le _ _
    have h4 : (OrderRepository.getActiveByTicker s b.ticker 10).length ≤ 10 := by
      unfold OrderRepository.getActiveByTicker
      exact List.length_take_le _ _
    omega
  have hlevels : (ExchangeService.getOrderbook s b.ticker 10).bidLevels =
      groupLevels (sortBids (bidsOf (OrderRepository.getActiveByTicker s b.ticker 10))) := by
    show (groupLevels (sortBids (bidsOf
      (OrderRepository.getActiveByTicker s b.ticker 10)))).take 10 = _
    exact List.take_of_length_le hlen
  have hsum_bids : b.qty ≤
      ((bidsOf (OrderRepository.getActiveByTicker s b.ticker 10)).map remainingOf).sum := by
    rw [hlevels, groupLevels_qty_sum, ((sortBids_perm _).map remainingOf).sum_eq]
      at hliq
    exact hliq
  have hsub : (bidsOf (OrderRepository.getActiveByTicker s b.ticker 10)).Sublist
      (s.orders.filter (fun o =>
        (o.direction == Direction.buy && o.otype == OrderType.limit) &&
        (o.ticker == b.ticker && isActiveStatus o.status))) := by
    have h1 : (OrderRepository.getActiveByTicker s b.ticker 10).Sublist
        (s.orders.filter (fun o => o.ticker == b.ticker && isActiveStatus o.status)) := by
      unfold OrderRepository.getActiveByTicker
      exact List.take_sublist _ _
    have h2 := List.Sublist.filter
      (fun o => o.direction == Direction.buy && o.otype == OrderType.limit) h1
    rw [List.filter_filter] at h2
    exact h2
  have hstep1 : ((bidsOf (OrderRepository.getActiveByTicker s b.ticker 10)).map
      remainingOf).sum ≤
      ((s.orders.filter (fun o =>
        (o.direction == Direction.buy && o.otype == OrderType.limit) &&
        (o.ticker == b.ticker && isActiveStatus o.status))).map remainingOf).sum := by
    apply sum_map_sublist_le _ hsub
    intro x hx
    exact hrem_nonneg x (List.mem_of_mem_filter hx)
  have hstep2 : ((s.orders.filter (fun o =>
      (o.direction == Direction.buy && o.otype == OrderType.limit) &&
      (o.ticker == b.ticker && isActiveStatus o.status))).map remainingOf).sum ≤
      ((s.orders.filter (ExchangeService.candFilter newo)).map remainingOf).sum := by
    apply sum_filter_le_of_imp _ _ _ _ hrem_nonneg
    intro x hx hpq
    simp only [Bool.and_eq_true, beq_iff_eq] at hpq
    have hxid : x.id ≠ newo.id := by
      have := (hwf x hx).2
      omega
    simp only [ExchangeService.candFilter, hnt, hnd, hnty,
      ExchangeService.counterOf, Bool.and_eq_true, bne_iff_ne, beq_iff_eq]
    refine ⟨⟨⟨⟨hpq.2.1, hpq.1.1⟩, ?_⟩, hxid⟩, ?_⟩
    · exact hpq.2.2
    · simp
  omega

/-- Claim C4 is confirmed (in the sequential semantics of the embedding):
every admitted MARKET order — one whose submission returns ok — has been
filled completely by the match loop: its row ends EXECUTED with
`filled = qty`.  It never rests NEW or PARTIALLY_EXECUTED and never
partially executes, because the pre-walk over the book snapshot only admits
the order when the snapshot (a subset of the loop's candidates) already
carries its full quantity.  Hypotheses: a well-formed store (fills within
quantity, ids below the id source) and a positive quantity, the data-model
invariant on order bodies. -/
theorem c4_market_order_executes (s : ExchangeState) (uid : Nat)
    (b : MarketOrderBody)
    (hwf : ∀ x ∈ s.orders, x.filled ≤ x.qty ∧ x.id < s.nextOrderId)
    (hq : 0 < b.qty) (oid : Nat)
    (hres : (ExchangeService.createMarketOrder s uid b).1 = .ok oid) :
    ∃ u, OrderRepository.findOrder
        (ExchangeService.createMarketOrder s uid b).2 oid = some u ∧
      u.status = .executed ∧ u.filled = u.qty := by
  rcases hP : ExchangeService.createMarketOrder s uid b with ⟨res, sfin⟩
  have hres2 : res = .ok oid := by rw [hP] at hres; exact hres
  show ∃ u, OrderRepository.findOrder sfin oid = some u ∧
    u.status = OrderStatus.executed ∧ u.filled = u.qty
  clear hres
  simp only [ExchangeService.createMarketOrder] at hP
  split at hP
  · rw [Prod.mk.injEq] at hP
    rw [← hP.1] at hres2
    exact absurd hres2 (by simp)
  · split at hP
    · rename_i e s1 heq
      rw [Prod.mk.injEq] at hP
      rw [← hP.1] at hres2
      exact absurd hres2 (by simp)
    · rename_i v1 s1 heq
      split at hP
      · rename_i e s2 hrepo
        rw [Prod.mk.injEq] at hP
        rw [← hP.1] at hres2
        exact absurd hres2 (by simp)
      · rename_i o s2 hrepo
        rw [Prod.mk.injEq] at hP
        rw [← hP.1] at hres2
        rw [Except.ok.injEq] at hres2
        subst hres2
        rw [← hP.2]
        split at heq
        · -- BUY branch of the service
          rename_i hdir
          split at heq
          · exact absurd heq (by simp)
          · rename_i hempty
            split at heq
            · exact absurd heq (by simp)
            · rename_i hpre
              split at heq
              · exact absurd heq (by simp)
              · rename_i bal hfb
                split at heq
                · exact absurd heq (by simp)
                · rename_i hba
                  split at heq
                  · rename_i s1x hlock
                    exact absurd heq (by simp)
                  · rename_i v s1x hlock
                    rw [Prod.mk.injEq] at heq
                    have hs1 : s1 = s1x := heq.2.symm
                    subst hs1
                    rw [OrderRepository.createMarketOrder] at hrepo
                    rw [if_neg (by rw [hdir]; exact fun hc => Direction.noConfusion hc)]
                      at hrepo
                    simp only [Prod.mk.injEq, Except.ok.injEq] at hrepo
                    obtain ⟨ho, hs2⟩ := hrepo
                    subst ho
                    subst hs2
                    have hs1state : s1 = (BalanceRepository.lockBalance s uid "RUB"
                        (ExchangeService.prewalk
                          (ExchangeService.getOrderbook s b.ticker 10).askLevels
                          b.qty).1).2 :=
                      (congrArg Prod.snd hlock).symm
                    have hord : s1.orders = s.orders := by
                      rw [hs1state]; exact lockBalance_orders _ _ _ _
                    have hnid : s1.nextOrderId = s.nextOrderId := by
                      rw [hs1state]; exact lockBalance_nextOrderId _ _ _ _
                    have hself : (ExchangeService.candFilter
                        ⟨s1.nextOrderId, uid, b.ticker, .market, b.direction,
                          none, b.qty, 0, .new, s1.time⟩
                        ⟨s1.nextOrderId, uid, b.ticker, .market, b.direction,
                          none, b.qty, 0, .new, s1.time⟩) = false := by
                      simp [ExchangeService.candFilter]
                    have hfilter :
                        (s1.orders ++
                          [(⟨s1.nextOrderId, uid, b.ticker, .market, b.direction,
                            none, b.qty, 0, .new, s1.time⟩ : Order)]).filter
                          (ExchangeService.candFilter
                            ⟨s1.nextOrderId, uid, b.ticker, .market, b.direction,
                              none, b.qty, 0, .new, s1.time⟩) =
                        s.orders.filter
                          (ExchangeService.candFilter
                            ⟨s1.nextOrderId, uid, b.ticker, .market, b.direction,
                              none, b.qty, 0, .new, s1.time⟩) := by
                      rw [List.filter_append, hord]
                      simp [hself]
                    apply matchOrders_executes _
                      ⟨s1.nextOrderId, uid, b.ticker, .market, b.direction,
                        none, b.qty, 0, .new, s1.time⟩
                    · rw [findOrder_mk]
                      apply find?_append_new
                      intro x hx
                      rw [hord] at hx
                      have := (hwf x hx).2
                      show x.id ≠ s1.nextOrderId
                      omega
                    · rfl
                    · rfl
                    · exact hq
                    · show (b.qty : Int) ≤ _
                      rw [show ({ s1 with
                          orders := s1.orders ++
                            [(⟨s1.nextOrderId, uid, b.ticker, .market, b.direction,
                              none, b.qty, 0, .new, s1.time⟩ : Order)],
                          nextOrderId := s1.nextOrderId + 1,
                          time := s1.time + 1 } : ExchangeState).orders =
                          s1.orders ++
                            [(⟨s1.nextOrderId, uid, b.ticker, .market, b.direction,
                              none, b.qty, 0, .new, s1.time⟩ : Order)] from rfl,
                        hfilter]
                      exact ask_liquidity s b _ hwf hnid rfl hdir rfl hq (by omega)
                    · intro c hc
                      rw [show ({ s1 with
                          orders := s1.orders ++
                            [(⟨s1.nextOrderId, uid, b.ticker, .market, b.direction,
                              none, b.qty, 0, .new, s1.time⟩ : Order)],
                          nextOrderId := s1.nextOrderId + 1,
                          time := s1.time + 1 } : ExchangeState).orders =
                          s1.orders ++
                            [(⟨s1.nextOrderId, uid, b.ticker, .market, b.direction,
                              none, b.qty, 0, .new, s1.time⟩ : Order)] from rfl,
                        hfilter] at hc
                      have hcm : c ∈ s.orders := List.mem_of_mem_filter hc
                      have := (hwf c hcm).1
                      unfold remainingOf
                      omega
        · -- SELL branch of the service
          rename_i hdirn
          have hdir : b.direction = .sell := by
            cases hb : b.direction
            · exact absurd hb hdirn
            · rfl
          split at heq
          · exact absurd heq (by simp)
          · rename_i hempty
            split at heq
            · exact absurd heq (by simp)
            · rename_i bal hfb
              split at heq
              · exact absurd heq (by simp)
              · rename_i hba
                split at heq
                · exact absurd heq (by simp)
                · rename_i hliq
                  split at heq
                  · rename_i s1x hlock
                    exact absurd heq (by simp)
                  · rename_i v s1x hlock
                    rw [Prod.mk.injEq] at heq
                    have hs1 : s1 = s1x := heq.2.symm
                    subst hs1
                    rw [OrderRepository.createMarketOrder] at hrepo
                    rw [if_pos hdir] at hrepo
                    rcases hlock2 : BalanceRepository.lockBalance s1 uid b.ticker b.qty
                      with ⟨lv, s1b⟩
                    rw [hlock2] at hrepo
                    cases lv with
                    | none => exact absurd hrepo (by simp)
                    | some v2 =>
                        simp only [Prod.mk.injEq, Except.ok.injEq] at hrepo
                        obtain ⟨ho, hs2⟩ := hrepo
                        subst ho
                        subst hs2
                        have hs1state : s1 = (BalanceRepository.lockBalance s uid
                            b.ticker b.qty).2 :=
                          (congrArg Prod.snd hlock).symm
                        have hs1bstate : s1b = (BalanceRepository.lockBalance s1 uid
                            b.ticker b.qty).2 :=
                          (congrArg Prod.snd hlock2).symm
                        have hord : s1b.orders = s.orders := by
                          rw [hs1bstate, lockBalance_orders, hs1state]
                          exact lockBalance_orders _ _ _ _
                        have hnid : s1b.nextOrderId = s.nextOrderId := by
                          rw [hs1bstate, lockBalance_nextOrderId, hs1state]
                          exact lockBalance_nextOrderId _ _ _ _
                        have hself : (ExchangeService.candFilter
                            ⟨s1b.nextOrderId, uid, b.ticker, .market, b.direction,
                              none, b.qty, 0, .new, s1b.time⟩
                            ⟨s1b.nextOrderId, uid, b.ticker, .market, b.direction,
                              none, b.qty, 0, .new, s1b.time⟩) = false := by
                          simp [ExchangeService.candFilter]
                        have hfilter :
                            (s1b.orders ++
                              [(⟨s1b.nextOrderId, uid, b.ticker, .market, b.direction,
                                none, b.qty, 0, .new, s1b.time⟩ : Order)]).filter
                              (ExchangeService.candFilter
                                ⟨s1b.nextOrderId, uid, b.ticker, .market, b.direction,
                                  none, b.qty, 0, .new, s1b.time⟩) =
                            s.orders.filter
                              (ExchangeService.candFilter
                                ⟨s1b.nextOrderId, uid, b.ticker, .market, b.direction,
                                  none, b.qty, 0, .new, s1b.time⟩) := by
                          rw [List.filter_append, hord]
                          simp [hself]
                        apply matchOrders_executes _
                          ⟨s1b.nextOrderId, uid, b.ticker, .market, b.direction,
                            none, b.qty, 0, .new, s1b.time⟩
                        · rw [findOrder_mk]
                          apply find?_append_new
                          intro x hx
                          rw [hord] at hx
                          have := (hwf x hx).2
                          show x.id ≠ s1b.nextOrderId
                          omega
                        · rfl
                        · rfl
                        · exact hq
                        · show (b.qty : Int) ≤ _
                          rw [show ({ s1b with
                              orders := s1b.orders ++
                                [(⟨s1b.nextOrderId, uid, b.ticker, .market,
                                  b.direction, none, b.qty, 0, .new,
                                  s1b.time⟩ : Order)],
                              nextOrderId := s1b.nextOrderId + 1,
                              time := s1b.time + 1 } : ExchangeState).orders =
                              s1b.orders ++
                                [(⟨s1b.nextOrderId, uid, b.ticker, .market,
                                  b.direction, none, b.qty, 0, .new,
                                  s1b.time⟩ : Order)] from rfl,
                            hfilter]
                          exact bid_liquidity s b _ hwf hnid rfl hdir rfl (by omega)
                        · intro c hc
                          rw [show ({ s1b with
                              orders := s1b.orders ++
                                [(⟨s1b.nextOrderId, uid, b.ticker, .market,
                                  b.direction, none, b.qty, 0, .new,
                                  s1b.time⟩ : Order)],
                              nextOrderId := s1b.nextOrderId + 1,
                              time := s1b.time + 1 } : ExchangeState).orders =
                              s1b.orders ++
                                [(⟨s1b.nextOrderId, uid, b.ticker, .market,
                                  b.direction, none, b.qty, 0, .new,
                                  s1b.time⟩ : Order)] from rfl,
                            hfilter] at hc
                          have hcm : c ∈ s.orders := List.mem_of_mem_filter hc
                          have := (hwf c hcm).1
                          unfold remainingOf
                          omega

/-- Witness for `c4_market_order_executes` at `c4WState`: the admitted
MARKET BUY MEM 4 ends EXECUTED with filled = qty. -/
theorem c4_witness :
    (∀ x ∈ c4WState.orders, x.filled ≤ x.qty ∧ x.id < c4WState.nextOrderId) ∧
    0 < c4WBody.qty ∧
    (ExchangeService.createMarketOrder c4WState 1 c4WBody).1 = .ok 1 ∧
    (∃ u, OrderRepository.findOrder
        (ExchangeService.createMarketOrder c4WState 1 c4WBody).2 1 = some u ∧
      u.status = .executed ∧ u.filled = u.qty) :=
  ⟨by decide, by decide, by decide,
    c4_market_order_executes c4WState 1 c4WBody (by decide) (by decide) 1 (by decide)⟩

/-- Witness for `c8_match_priority`: the two equal-priced resting SELL
orders of `c8State` sorted for a taker SELL's opposite side query shape
(ascending when the taker is a BUY). -/
theorem c8_match_priority_witness :
    (∀ o ∈ c8State.orders, o.price.isSome = true) ∧
    (ExchangeService.sortCandidates true c8State.orders).Pairwise (fun c1 c2 =>
      (if true then priceOf c1 < priceOf c2 else priceOf c2 < priceOf c1) ∨
      (priceOf c1 = priceOf c2 ∧ c1.createdAt ≤ c2.createdAt)) :=
  ⟨by decide, c8_match_priority true c8State.orders (by decide)⟩

/-! ## Preservation of the balance invariant by the ledger primitives -/

theorem findBalance_mem (s : ExchangeState) (u : Nat) (t : String) (b : Balance)
    (h : BalanceRepository.findBalance s u t = some b) :
    ∃ e ∈ s.balances, e.2 = b := by
  unfold BalanceRepository.findBalance at h
  rcases Option.map_eq_some'.mp h with ⟨e, he, rfl⟩
  exact ⟨e, List.mem_of_find?_eq_some he, rfl⟩

theorem setBalanceRow_balInv (s : ExchangeState) (u : Nat) (t : String)
    (b : Balance) (hs : BalInv s) (hb : 0 ≤ b.lockedAmount) :
    BalInv (BalanceRepository.setBalanceRow s u t b) := by
  unfold BalanceRepository.setBalanceRow
  split
  · intro e he
    simp only at he
    rcases List.mem_map.mp he with ⟨e0, he0, rfl⟩
    split
    · exact hb
    · exact hs e0 he0
  · intro e he
    simp only at he
    rcases List.mem_append.mp he with h | h
    · exact hs e h
    · rcases List.mem_singleton.mp h with rfl
      exact hb

theorem lockBalance_balInv (s : ExchangeState) (u : Nat) (t : String)
    (amt : Int) (hs : BalInv s) (hamt : 0 ≤ amt) :
    BalInv (BalanceRepository.lockBalance s u t amt).2 := by
  simp only [BalanceRepository.lockBalance]
  split
  · exact hs
  · apply setBalanceRow_balInv _ _ _ _ hs
    rcases hb : BalanceRepository.findBalance s u t with _ | bb
    · simp only [hb, Option.getD_none]
      omega
    · simp only [hb, Option.getD_some]
      rcases findBalance_mem s u t bb hb with ⟨e, he, rfl⟩
      have := hs e he
      omega

theorem unlockBalance_balInv (s : ExchangeState) (u : Nat) (t : String)
    (amt : Int) (hs : BalInv s) :
    BalInv (BalanceRepository.unlockBalance s u t amt).2 := by
  unfold BalanceRepository.unlockBalance
  split
  · exact hs
  · rename_i bb heq
    split
    · exact hs
    · rename_i hlt
      apply setBalanceRow_balInv _ _ _ _ hs
      simp only
      omega

theorem unlockAndSubtractBalance_balInv (s : ExchangeState) (u : Nat)
    (t : String) (amt : Int) (hs : BalInv s) :
    BalInv (BalanceRepository.unlockAndSubtractBalance s u t amt).2 := by
  unfold BalanceRepository.unlockAndSubtractBalance
  split
  · exact hs
  · rename_i bb heq
    split
    · exact hs
    · rename_i hlt
      apply setBalanceRow_balInv _ _ _ _ hs
      simp only
      omega

theorem updateBalance_balInv (s : ExchangeState) (u : Nat) (t : String)
    (amt : Int) (hs : BalInv s) :
    BalInv (BalanceRepository.updateBalance s u t amt) := by
  unfold BalanceRepository.updateBalance
  split
  · rename_i bb heq
    apply setBalanceRow_balInv _ _ _ _ hs
    rcases findBalance_mem s u t bb heq with ⟨e, he, rfl⟩
    exact hs e he
  · intro e he
    simp only at he
    rcases List.mem_append.mp he with h | h
    · exact hs e h
    · rcases List.mem_singleton.mp h with rfl
      simp

theorem applyFillBalances_balInv (s : ExchangeState) (isBuy : Bool)
    (tu cu : Nat) (tk : String) (q p : Int) (hs : BalInv s) :
    BalInv (ExchangeService.applyFillBalances s isBuy tu cu tk q p) := by
  unfold ExchangeService.applyFillBalances
  split
  · exact updateBalance_balInv _ _ _ _
      (unlockAndSubtractBalance_balInv _ _ _ _
        (updateBalance_balInv _ _ _ _
          (unlockAndSubtractBalance_balInv _ _ _ _ hs)))
  · exact updateBalance_balInv _ _ _ _
      (unlockAndSubtractBalance_balInv _ _ _ _
        (updateBalance_balInv _ _ _ _
          (unlockAndSubtractBalance_balInv _ _ _ _ hs)))

theorem transactionCreate_balInv (s : ExchangeState) (tk : String)
    (am pr : Int) (b1 b2 : Nat) (hs : BalInv s) :
    BalInv (TransactionRepository.create s tk am pr b1 b2) := by
  have hs1 : BalInv { s with transactions := s.transactions ++
      [⟨tk, am, pr, b1, b2⟩] } := hs
  simp only [TransactionRepository.create]
  split
  · exact updateBalance_balInv _ _ _ _
      (updateBalance_balInv _ _ _ _
        (updateBalance_balInv _ _ _ _
          (updateBalance_balInv _ _ _ _ hs1)))
  · exact hs1

theorem unlockBalance_nextOrderId (s : ExchangeState) (u : Nat) (t : String)
    (amt : Int) :
    (BalanceRepository.unlockBalance s u t amt).2.nextOrderId = s.nextOrderId := by
  unfold BalanceRepository.unlockBalance
  split
  · rfl
  · split
    · rfl
    · exact setBalanceRow_nextOrderId _ _ _ _

theorem unlockAndSubtractBalance_nextOrderId (s : ExchangeState) (u : Nat)
    (t : String) (amt : Int) :
    (BalanceRepository.unlockAndSubtractBalance s u t amt).2.nextOrderId =
      s.nextOrderId := by
  unfold BalanceRepository.unlockAndSubtractBalance
  split
  · rfl
  · split
    · rfl
    · exact setBalanceRow_nextOrderId _ _ _ _

theorem updateBalance_nextOrderId (s : ExchangeState) (u : Nat) (t : String)
    (amt : Int) :
    (BalanceRepository.updateBalance s u t amt).nextOrderId = s.nextOrderId := by
  unfold BalanceRepository.updateBalance
  split
  · exact setBalanceRow_nextOrderId _ _ _ _
  · rfl

theorem applyFillBalances_nextOrderId (s : ExchangeState) (isBuy : Bool)
    (tu cu : Nat) (tk : String) (q p : Int) :
    (ExchangeService.applyFillBalances s isBuy tu cu tk q p).nextOrderId =
      s.nextOrderId := by
  unfold ExchangeService.applyFillBalances
  split <;>
    simp only [updateBalance_nextOrderId, unlockAndSubtractBalance_nextOrderId]

theorem transactionCreate_nextOrderId (s : ExchangeState) (tk : String)
    (am pr : Int) (b1 b2 : Nat) :
    (TransactionRepository.create s tk am pr b1 b2).nextOrderId =
      s.nextOrderId := by
  simp only [TransactionRepository.create]
  split <;> simp only [updateBalance_nextOrderId]

theorem matchLoop_nextOrderId (taker : Order) (isBuy : Bool)
    (cands : List Order) :
    ∀ (s : ExchangeState) (r f : Int),
      (ExchangeService.matchLoop taker isBuy cands s r f).1.nextOrderId =
        s.nextOrderId := by
  induction cands with
  | nil => intro s r f; rfl
  | cons c rest ih =>
      intro s r f
      by_cases h : r ≤ 0
      · simp [ExchangeService.matchLoop, if_pos h]
      · simp only [ExchangeService.matchLoop, if_neg h]
        rw [ih, transactionCreate_nextOrderId, applyFillBalances_nextOrderId]

theorem matchLoop_balances_balInv (taker : Order) (isBuy : Bool)
    (cands : List Order) :
    ∀ (s : ExchangeState) (r f : Int), BalInv s →
      BalInv (ExchangeService.matchLoop taker isBuy cands s r f).1 := by
  induction cands with
  | nil => intro s r f hs; exact hs
  | cons c rest ih =>
      intro s r f hs
      by_cases h : r ≤ 0
      · simp only [ExchangeService.matchLoop, if_pos h]
        exact hs
      · simp only [ExchangeService.matchLoop, if_neg h]
        apply ih
        apply transactionCreate_balInv
        apply applyFillBalances_balInv
        exact hs

/-! ## Shape lemmas for `setFill` and the cancel write -/

theorem setFill_map_id (l : List Order) (i : Nat) (fv : Int) (st : OrderStatus) :
    (ExchangeService.setFill l i fv st).map Order.id = l.map Order.id := by
  induction l with
  | nil => rfl
  | cons a rest ih =>
      simp only [ExchangeService.setFill, List.map_cons] at *
      rw [ih]
      congr 1
      split <;> rfl

theorem setFill_shape (l : List Order) (i : Nat) (fv : Int) (st : OrderStatus) :
    ∀ o' ∈ ExchangeService.setFill l i fv st,
      ∃ o ∈ l, o'.id = o.id ∧ o'.qty = o.qty := by
  intro o' ho'
  rcases List.mem_map.mp ho' with ⟨o, ho, rfl⟩
  refine ⟨o, ho, ?_⟩
  split <;> exact ⟨rfl, rfl⟩

theorem setFill_ordP (l : List Order) (i : Nat) (fv : Int) (st : OrderStatus)
    (nid : Nat) (hl : ∀ o ∈ l, OrdP nid o)
    (hfv : ∀ o ∈ l, o.id = i → 0 ≤ fv ∧ fv ≤ o.qty) :
    ∀ o' ∈ ExchangeService.setFill l i fv st, OrdP nid o' := by
  intro o' ho'
  rcases List.mem_map.mp ho' with ⟨o, ho, rfl⟩
  have hp := hl o ho
  split
  · rename_i hoi
    rcases hfv o ho hoi with ⟨h1, h2⟩
    exact ⟨h1, h2, hp.2.2.1, hp.2.2.2⟩
  · exact hp

theorem fillStep_orders (us : List (Nat × Bool)) (ins : List String)
    (bals : List ((Nat × String) × Balance)) (l : List Order) (ts : List Trade)
    (nid tm : Nat) (isBuy : Bool) (tu cu : Nat) (tk tk2 : String)
    (q p am pr : Int) (b1 b2 : Nat) :
    (TransactionRepository.create
      (ExchangeService.applyFillBalances ⟨us, ins, bals, l, ts, nid, tm⟩
        isBuy tu cu tk q p) tk2 am pr b1 b2).orders = l := by
  rw [transactionCreate_orders, applyFillBalances_orders]

theorem matchLoop_map_id (taker : Order) (isBuy : Bool) (cands : List Order) :
    ∀ (s : ExchangeState) (r f : Int),
      (ExchangeService.matchLoop taker isBuy cands s r f).1.orders.map Order.id =
        s.orders.map Order.id := by
  induction cands with
  | nil => intro s r f; rfl
  | cons c rest ih =>
      intro s r f
      by_cases h : r ≤ 0
      · simp [ExchangeService.matchLoop, if_pos h]
      · simp only [ExchangeService.matchLoop, if_neg h]
        rw [ih]
        rw [transactionCreate_orders, applyFillBalances_orders]
        show ((ExchangeService.setFill (ExchangeService.setFill s.orders taker.id _ _)
          c.id _ _).map Order.id) = _
        rw [setFill_map_id, setFill_map_id]

theorem matchLoop_ordInv (taker : Order) (isBuy : Bool) (nid : Nat)
    (cands : List Order) :
    ∀ (s : ExchangeState) (r f : Int),
      (∀ o ∈ s.orders, OrdP nid o) →
      (∀ c ∈ cands, 0 ≤ c.filled ∧ c.filled ≤ c.qty) →
      (∀ c ∈ cands, ∀ o ∈ s.orders, o.id = c.id → o.qty = c.qty) →
      0 ≤ r →
      (∀ o ∈ s.orders, o.id = taker.id → 0 ≤ f ∧ f + r ≤ o.qty) →
      ∀ o ∈ (ExchangeService.matchLoop taker isBuy cands s r f).1.orders,
        OrdP nid o := by
  induction cands with
  | nil => intro s r f h1 _ _ _ _; exact h1
  | cons c rest ih =>
      intro s r f h1 h4 h7 hr h6
      by_cases h : r ≤ 0
      · simp only [ExchangeService.matchLoop, if_pos h]
        exact h1
      · simp only [ExchangeService.matchLoop, if_neg h]
        have hcb := h4 c (List.mem_cons_self _ _)
        have he0 : 0 ≤ min r (c.qty - c.filled) := by omega
        have her : min r (c.qty - c.filled) ≤ r := by omega
        have hec : min r (c.qty - c.filled) ≤ c.qty - c.filled := by omega
        -- the two writes preserve OrdP
        have hl1 : ∀ o ∈ ExchangeService.setFill s.orders taker.id
            (f + min r (c.qty - c.filled))
            (ExchangeService.statusFor (f + min r (c.qty - c.filled)) taker.qty),
            OrdP nid o := by
          apply setFill_ordP _ _ _ _ _ h1
          intro o ho hoi
          rcases h6 o ho hoi with ⟨hf1, hf2⟩
          omega
        have hl2 : ∀ o ∈ ExchangeService.setFill
            (ExchangeService.setFill s.orders taker.id
              (f + min r (c.qty - c.filled))
              (ExchangeService.statusFor (f + min r (c.qty - c.filled)) taker.qty))
            c.id (c.filled + min r (c.qty - c.filled))
            (ExchangeService.statusFor (c.filled + min r (c.qty - c.filled)) c.qty),
            OrdP nid o := by
          apply setFill_ordP _ _ _ _ _ hl1
          intro o ho hoi
          rcases setFill_shape _ _ _ _ o ho with ⟨o0, ho0, hid, hqty⟩
          have hq0 : o0.qty = c.qty :=
            h7 c (List.mem_cons_self _ _) o0 ho0 (hid ▸ hoi)
          rw [hqty, hq0]
          omega
        apply ih
        · intro o ho
          rw [fillStep_orders] at ho
          exact hl2 o ho
        · exact fun x hx => h4 x (List.mem_cons_of_mem _ hx)
        · intro x hx o ho hoi
          rw [fillStep_orders] at ho
          rcases setFill_shape _ _ _ _ o ho with ⟨o1, ho1, hid1, hqty1⟩
          rcases setFill_shape _ _ _ _ o1 ho1 with ⟨o0, ho0, hid0, hqty0⟩
          rw [hqty1, hqty0]
          exact h7 x (List.mem_cons_of_mem _ hx) o0 ho0 ((hid0 ▸ hid1 ▸ hoi))
        · omega
        · intro o ho hoi
          rw [fillStep_orders] at ho
          rcases setFill_shape _ _ _ _ o ho with ⟨o1, ho1, hid1, hqty1⟩
          rcases setFill_shape _ _ _ _ o1 ho1 with ⟨o0, ho0, hid0, hqty0⟩
          rcases h6 o0 ho0 ((hid0 ▸ hid1 ▸ hoi)) with ⟨hf1, hf2⟩
          rw [hqty1, hqty0]
          omega

theorem candFilter_mem_filter_sub (s : ExchangeState) (t : Order) :
    ∀ c ∈ ExchangeService.sortCandidates (t.direction = Direction.buy)
      (s.orders.filter (ExchangeService.candFilter t)), c ∈ s.orders := by
  intro c hc
  have := (sortCandidates_perm _ _).mem_iff.mp hc
  exact List.mem_of_mem_filter this

/-- `_match_orders` preserves the state invariant. -/
theorem matchOrders_inv (s : ExchangeState) (oid : Nat) (hinv : Inv s) :
    Inv (ExchangeService.matchOrders s oid) := by
  simp only [ExchangeService.matchOrders]
  split
  · exact hinv
  · rename_i ord heq
    split
    · exact hinv
    · split
      · exact hinv
      · rename_i hterm hne
        have hord_mem : ord ∈ s.orders := List.mem_of_find?_eq_some heq
        have hOP := hinv.2.1
        have hnd := hinv.2.2
        have hop_ord := hOP ord hord_mem
        refine ⟨matchLoop_balances_balInv _ _ _ _ _ _ hinv.1, ?_, ?_⟩
        · rw [matchLoop_nextOrderId]
          apply matchLoop_ordInv _ _ _ _ _ _ _ hOP
          · intro c hc
            have := hOP c (candFilter_mem_filter_sub s ord c hc)
            exact ⟨this.1, this.2.1⟩
          · intro c hc o ho hoi
            have hcmem := candFilter_mem_filter_sub s ord c hc
            have : o = c := List.inj_on_of_nodup_map hnd ho hcmem hoi
            rw [this]
          · have := hop_ord
            rcases this with ⟨hh1, hh2, _, _⟩
            omega
          · intro o ho hoi
            have : o = ord := List.inj_on_of_nodup_map hnd ho hord_mem hoi
            subst this
            rcases hop_ord with ⟨hh1, hh2, _, _⟩
            exact ⟨hh1, by omega⟩
        · rw [matchLoop_map_id]
          exact hnd

theorem OrdP_mono (nid : Nat) (o : Order) (h : OrdP nid o) :
    OrdP (nid + 1) o := by
  rcases h with ⟨h1, h2, h3, h4⟩
  exact ⟨h1, h2, by omega, h4⟩

theorem lockBalance_inv (s : ExchangeState) (u : Nat) (t : String) (amt : Int)
    (hinv : Inv s) (hamt : 0 ≤ amt) :
    Inv (BalanceRepository.lockBalance s u t amt).2 := by
  refine ⟨lockBalance_balInv _ _ _ _ hinv.1 hamt, ?_, ?_⟩
  · rw [lockBalance_orders, lockBalance_nextOrderId]
    exact hinv.2.1
  · rw [lockBalance_orders]
    exact hinv.2.2

theorem unlockBalance_inv (s : ExchangeState) (u : Nat) (t : String) (amt : Int)
    (hinv : Inv s) :
    Inv (BalanceRepository.unlockBalance s u t amt).2 := by
  refine ⟨unlockBalance_balInv _ _ _ _ hinv.1, ?_, ?_⟩
  · rw [unlockBalance_orders, unlockBalance_nextOrderId]
    exact hinv.2.1
  · rw [unlockBalance_orders]
    exact hinv.2.2

theorem updateBalance_inv (s : ExchangeState) (u : Nat) (t : String) (amt : Int)
    (hinv : Inv s) :
    Inv (BalanceRepository.updateBalance s u t amt) := by
  refine ⟨updateBalance_balInv _ _ _ _ hinv.1, ?_, ?_⟩
  · rw [updateBalance_orders, updateBalance_nextOrderId]
    exact hinv.2.1
  · rw [updateBalance_orders]
    exact hinv.2.2

/-- `deposit` preserves the invariant. -/
theorem deposit_inv (s : ExchangeState) (u : Nat) (t : String) (amt : Int)
    (hinv : Inv s) : Inv (BalanceService.deposit s u t amt).2 := by
  unfold BalanceService.deposit
  split
  · exact hinv
  · split
    · exact hinv
    · split
      · exact hinv
      · exact updateBalance_inv _ _ _ _ hinv

/-- `withdraw` preserves the invariant (the locked amount is untouched; the
claim's upper bound `reserved ≤ total` is exactly what it does not
preserve). -/
theorem withdraw_inv (s : ExchangeState) (u : Nat) (t : String) (amt : Int)
    (hinv : Inv s) : Inv (BalanceService.withdraw s u t amt).2 := by
  unfold BalanceService.withdraw
  split
  · exact hinv
  · split
    · exact hinv
    · split
      · exact hinv
      · split
        · exact hinv
        · split
          · exact hinv
          · exact updateBalance_inv _ _ _ _ hinv

theorem statusWrite_map_id (l : List Order) (oid : Nat) :
    (l.map (fun x => if x.id = oid then { x with status := OrderStatus.cancelled }
      else x)).map Order.id = l.map Order.id := by
  induction l with
  | nil => rfl
  | cons a rest ih =>
      simp only [List.map_cons] at *
      rw [ih]
      congr 1
      split <;> rfl

theorem statusWrite_ordP (l : List Order) (oid : Nat) (nid : Nat)
    (hl : ∀ o ∈ l, OrdP nid o) :
    ∀ o' ∈ l.map (fun x => if x.id = oid then
      { x with status := OrderStatus.cancelled } else x), OrdP nid o' := by
  intro o' ho'
  rcases List.mem_map.mp ho' with ⟨o, ho, rfl⟩
  have hp := hl o ho
  split
  · exact hp
  · exact hp

/-- `OrderRepository.cancel_order` preserves the invariant. -/
theorem repoCancelOrder_inv (s : ExchangeState) (oid : Nat) (hinv : Inv s) :
    Inv (OrderRepository.cancelOrder s oid).2 := by
  simp only [OrderRepository.cancelOrder]
  split
  · exact hinv
  · rename_i o heq
    split
    · exact hinv
    · have hs1 : ∀ s1 : ExchangeState, Inv s1 →
          Inv { s1 with orders := s1.orders.map (fun x =>
            if x.id = oid then { x with status := OrderStatus.cancelled } else x) } := by
        intro s1 h1
        refine ⟨h1.1, ?_, ?_⟩
        · show ∀ o' ∈ s1.orders.map _, OrdP s1.nextOrderId o'
          exact statusWrite_ordP _ _ _ h1.2.1
        · show ((s1.orders.map _).map Order.id).Nodup
          rw [statusWrite_map_id]
          exact h1.2.2
      apply hs1
      split
      · split
        · split
          · exact unlockBalance_inv _ _ _ _ hinv
          · exact unlockBalance_inv _ _ _ _ hinv
        · exact hinv
      · split
        · exact unlockBalance_inv _ _ _ _ hinv
        · exact hinv

/-- `cancel_order` (service) preserves the invariant. -/
theorem cancelOrder_inv (s : ExchangeState) (uid oid : Nat) (hinv : Inv s) :
    Inv (ExchangeService.cancelOrder s uid oid).2 := by
  unfold ExchangeService.cancelOrder
  split
  · exact hinv
  · rename_i o heq
    split
    · exact hinv
    · split
      · exact hinv
      · split
        · split
          · exact hinv
          · rename_i p hp
            have h1 : Inv (if (o.qty - o.filled) * p > 0 then
                (BalanceRepository.unlockBalance s uid "RUB"
                  ((o.qty - o.filled) * p)).2 else s) := by
              split
              · exact unlockBalance_inv _ _ _ _ hinv
              · exact hinv
            exact repoCancelOrder_inv _ _ h1
        · have h1 : Inv (if o.qty - o.filled > 0 then
              (BalanceRepository.unlockBalance s uid o.ticker
                (o.qty - o.filled)).2 else s) := by
            split
            · exact unlockBalance_inv _ _ _ _ hinv
            · exact hinv
          exact repoCancelOrder_inv _ _ h1

theorem appendOrder_inv (s1 : ExchangeState) (o : Order) (tm : Nat)
    (hinv : Inv s1) (ho : OrdP (s1.nextOrderId + 1) o)
    (hid : o.id = s1.nextOrderId) :
    Inv { s1 with orders := s1.orders ++ [o],
                  nextOrderId := s1.nextOrderId + 1, time := tm } := by
  refine ⟨hinv.1, ?_, ?_⟩
  · show ∀ x ∈ s1.orders ++ [o], OrdP (s1.nextOrderId + 1) x
    intro x hx
    rcases List.mem_append.mp hx with h | h
    · exact OrdP_mono _ _ (hinv.2.1 x h)
    · rcases List.mem_singleton.mp h with rfl
      exact ho
  · show ((s1.orders ++ [o]).map Order.id).Nodup
    rw [List.map_append, List.nodup_append]
    refine ⟨hinv.2.2, by simp, ?_⟩
    intro a ha hb
    have hao : a = o.id := by simpa using hb
    rcases List.mem_map.mp ha with ⟨x, hx, hxa⟩
    have := (hinv.2.1 x hx).2.2.1
    omega

/-- `create_limit_order` (service plus repository, including the match loop)
preserves the invariant. -/
theorem createLimitOrder_inv (s : ExchangeState) (uid : Nat)
    (b : LimitOrderBody) (hinv : Inv s) (hq : 0 < b.qty) (hp : 0 < b.price) :
    Inv (ExchangeService.createLimitOrder s uid b).2 := by
  have hamt2 : (0 : Int) ≤
      (if b.direction = .sell then b.qty else b.qty * b.price) := by
    split
    · omega
    · exact le_of_lt (mul_pos hq hp)
  simp only [ExchangeService.createLimitOrder]
  split
  · exact hinv
  · split
    · -- the service-level step errored; identify the state it left
      rename_i e s1 heq
      show Inv s1
      split at heq
      · split at heq
        · simp only [Prod.mk.injEq] at heq
          rw [← heq.2]
          exact hinv
        · rename_i bal hfb
          split at heq
          · simp only [Prod.mk.injEq] at heq
            rw [← heq.2]
            exact hinv
          · split at heq
            · rename_i s1x hlock
              simp only [Prod.mk.injEq] at heq
              rw [← heq.2]
              have hx : s1x = (BalanceRepository.lockBalance s uid "RUB"
                  (b.price * b.qty)).2 := (congrArg Prod.snd hlock).symm
              rw [hx]
              exact lockBalance_inv _ _ _ _ hinv (le_of_lt (mul_pos hp hq))
            · rename_i v s1x hlock
              simp only [Prod.mk.injEq] at heq
              exact absurd heq.1 (by simp)
      · split at heq
        · simp only [Prod.mk.injEq] at heq
          rw [← heq.2]
          exact hinv
        · rename_i bal hfb
          split at heq
          · simp only [Prod.mk.injEq] at heq
            rw [← heq.2]
            exact hinv
          · split at heq
            · rename_i s1x hlock
              simp only [Prod.mk.injEq] at heq
              rw [← heq.2]
              have hx : s1x = (BalanceRepository.lockBalance s uid b.ticker
                  b.qty).2 := (congrArg Prod.snd hlock).symm
              rw [hx]
              exact lockBalance_inv _ _ _ _ hinv (by omega)
            · rename_i v s1x hlock
              simp only [Prod.mk.injEq] at heq
              exact absurd heq.1 (by simp)
    · -- the service-level step succeeded with state s1
      rename_i v1 s1 heq
      have hinv1 : Inv s1 := by
        split at heq
        · split at heq
          · exact absurd heq (by simp)
          · rename_i bal hfb
            split at heq
            · exact absurd heq (by simp)
            · split at heq
              · rename_i s1x hlock
                exact absurd heq (by simp)
              · rename_i v s1x hlock
                simp only [Prod.mk.injEq] at heq
                rw [← heq.2]
                have hx : s1x = (BalanceRepository.lockBalance s uid "RUB"
                    (b.price * b.qty)).2 := (congrArg Prod.snd hlock).symm
                rw [hx]
                exact lockBalance_inv _ _ _ _ hinv (le_of_lt (mul_pos hp hq))
        · split at heq
          · exact absurd heq (by simp)
          · rename_i bal hfb
            split at heq
            · exact absurd heq (by simp)
            · split at heq
              · rename_i s1x hlock
                exact absurd heq (by simp)
              · rename_i v s1x hlock
                simp only [Prod.mk.injEq] at heq
                rw [← heq.2]
                have hx : s1x = (BalanceRepository.lockBalance s uid b.ticker
                    b.qty).2 := (congrArg Prod.snd hlock).symm
                rw [hx]
                exact lockBalance_inv _ _ _ _ hinv (by omega)
      split
      · -- repository creation errored (its second lock failed)
        rename_i e s2 hrepo
        show Inv s2
        simp only [OrderRepository.createLimitOrder] at hrepo
        split at hrepo
        · rename_i s2x hlock2
          simp only [Prod.mk.injEq] at hrepo
          rw [← hrepo.2]
          have hx : s2x = (BalanceRepository.lockBalance s1 uid
              (if b.direction = .sell then b.ticker else "RUB")
              (if b.direction = .sell then b.qty else b.qty * b.price)).2 :=
            (congrArg Prod.snd hlock2).symm
          rw [hx]
          exact lockBalance_inv _ _ _ _ hinv1 hamt2
        · rename_i v2 s2x hlock2
          simp only [Prod.mk.injEq] at hrepo
          exact absurd hrepo.1 (by simp)
      · -- repository creation succeeded; the match loop runs
        rename_i o s2 hrepo
        simp only [OrderRepository.createLimitOrder] at hrepo
        split at hrepo
        · rename_i s2x hlock2
          exact absurd hrepo (by simp)
        · rename_i v2 s2x hlock2
          simp only [Prod.mk.injEq, Except.ok.injEq] at hrepo
          obtain ⟨ho, hs2⟩ := hrepo
          subst hs2
          subst ho
          apply matchOrders_inv
          have hx : s2x = (BalanceRepository.lockBalance s1 uid
              (if b.direction = .sell then b.ticker else "RUB")
              (if b.direction = .sell then b.qty else b.qty * b.price)).2 :=
            (congrArg Prod.snd hlock2).symm
          have hinv2 : Inv s2x := by
            rw [hx]
            exact lockBalance_inv _ _ _ _ hinv1 hamt2
          apply appendOrder_inv _ _ _ hinv2
          · refine ⟨?_, ?_, ?_, ?_⟩
            · show (0 : Int) ≤ 0
              omega
            · show (0 : Int) ≤ b.qty
              omega
            · show s2x.nextOrderId < s2x.nextOrderId + 1
              omega
            · intro _
              constructor
              · rfl
              · show (0 : Int) < ((some b.price).getD 0)
                simpa using hp
          · rfl

theorem price_mem_upsert (acc : List Level) (p q x : Int)
    (h : x ∈ (upsertLevel acc p q).map Level.price) :
    x ∈ acc.map Level.price ∨ x = p := by
  rw [upsertLevel_price_map] at h
  split at h
  · exact .inl h
  · rcases List.mem_append.mp h with h1 | h1
    · exact .inl h1
    · exact .inr (by simpa using h1)

theorem groupFrom_price_mem (l : List Order) (acc : List Level) (x : Int)
    (h : x ∈ (groupFrom acc l).map Level.price) :
    x ∈ acc.map Level.price ∨ x ∈ l.map priceOf := by
  induction l generalizing acc with
  | nil => exact .inl (by simpa [groupFrom] using h)
  | cons o rest ih =>
      simp only [groupFrom] at h
      rcases ih _ h with h1 | h1
      · rcases price_mem_upsert acc (priceOf o) (remainingOf o) x h1 with h2 | h2
        · exact .inl h2
        · exact .inr (by simp [h2])
      · exact .inr (List.mem_cons_of_mem _ h1)

theorem groupLevels_price_mem (l : List Order) (x : Int)
    (h : x ∈ (groupLevels l).map Level.price) : x ∈ l.map priceOf := by
  rcases groupFrom_price_mem l [] x (by simpa [groupLevels] using h) with h1 | h1
  · simp at h1
  · exact h1

theorem prewalk_fold_nonneg (levels : List Level) : ∀ (acc : Int × Int),
    (∀ lvl ∈ levels, 0 ≤ lvl.qty ∧ 0 ≤ lvl.price) → 0 ≤ acc.1 →
    0 ≤ (levels.foldl
      (fun acc lvl =>
        if acc.2 ≤ 0 then acc
        else (acc.1 + min acc.2 lvl.qty * lvl.price, acc.2 - min acc.2 lvl.qty))
      acc).1 := by
  induction levels with
  | nil =>
      intro acc _ ha
      simpa using ha
  | cons lvl rest ih =>
      intro acc hq ha
      simp only [List.foldl_cons]
      apply ih _ (fun l hl => hq l (List.mem_cons_of_mem _ hl))
      split
      · exact ha
      · rename_i hpos
        have hlvl := hq lvl (List.mem_cons_self _ _)
        have h1 : 0 ≤ min acc.2 lvl.qty := le_min (by omega) hlvl.1
        have h2 : 0 ≤ min acc.2 lvl.qty * lvl.price := mul_nonneg h1 hlvl.2
        show 0 ≤ acc.1 + min acc.2 lvl.qty * lvl.price
        omega

theorem prewalk_nonneg (levels : List Level) (q : Int)
    (hq : ∀ lvl ∈ levels, 0 ≤ lvl.qty ∧ 0 ≤ lvl.price) :
    0 ≤ (ExchangeService.prewalk levels q).1 :=
  prewalk_fold_nonneg levels (0, q) hq (le_refl 0)

/-- Under the invariant, every level of the ask side of the book snapshot
has a nonnegative quantity and a nonnegative price. -/
theorem askLevels_nonneg (s : ExchangeState) (t : String) (hinv : Inv s) :
    ∀ lvl ∈ (ExchangeService.getOrderbook s t 10).askLevels,
      0 ≤ lvl.qty ∧ 0 ≤ lvl.price := by
  intro lvl hlvl
  have hmem : lvl ∈ groupLevels
      (sortAsks (asksOf (OrderRepository.getActiveByTicker s t 10))) :=
    List.mem_of_mem_take hlvl
  have hsub : ∀ x ∈ sortAsks (asksOf (OrderRepository.getActiveByTicker s t 10)),
      x ∈ s.orders ∧ x.otype = .limit := by
    intro x hx
    have hx2 : x ∈ asksOf (OrderRepository.getActiveByTicker s t 10) :=
      (sortAsks_perm _).mem_iff.mp hx
    have hx3 := List.mem_filter.mp hx2
    refine ⟨mem_active_subset s t 10 x hx3.1, ?_⟩
    have h4 := hx3.2
    simp only [Bool.and_eq_true, beq_iff_eq] at h4
    exact h4.2
  constructor
  · rw [groupLevels_qty_of_mem _ _ hmem]
    apply List.sum_nonneg
    intro y hy
    rcases List.mem_map.mp hy with ⟨x, hx, rfl⟩
    have hxs := (hsub x (List.mem_of_mem_filter hx)).1
    have h1 := (hinv.2.1 x hxs).1
    have h2 := (hinv.2.1 x hxs).2.1
    unfold remainingOf
    omega
  · have hp := groupLevels_price_mem _ _ (List.mem_map_of_mem Level.price hmem)
    rcases List.mem_map.mp hp with ⟨x, hx, hval⟩
    obtain ⟨hxs, hxl⟩ := hsub x hx
    have h3 := ((hinv.2.1 x hxs).2.2.2 hxl).2
    rw [hval] at h3
    omega

/-- `create_market_order` (service plus repository, including the match
loop) preserves the invariant. -/
theorem createMarketOrder_inv (s : ExchangeState) (uid : Nat)
    (b : MarketOrderBody) (hinv : Inv s) (hq : 0 < b.qty) :
    Inv (ExchangeService.createMarketOrder s uid b).2 := by
  have hask := askLevels_nonneg s b.ticker hinv
  have hreq : 0 ≤ (ExchangeService.prewalk
      (ExchangeService.getOrderbook s b.ticker 10).askLevels b.qty).1 :=
    prewalk_nonneg _ _ hask
  simp only [ExchangeService.createMarketOrder]
  split
  · exact hinv
  · split
    · -- the service-level step errored
      rename_i e s1 heq
      show Inv s1
      split at heq
      · -- BUY
        split at heq
        · simp only [Prod.mk.injEq] at heq
          rw [← heq.2]
          exact hinv
        · split at heq
          · simp only [Prod.mk.injEq] at heq
            rw [← heq.2]
            exact hinv
          · split at heq
            · simp only [Prod.mk.injEq] at heq
              rw [← heq.2]
              exact hinv
            · rename_i bal hfb
              split at heq
              · simp only [Prod.mk.injEq] at heq
                rw [← heq.2]
                exact hinv
              · split at heq
                · rename_i s1x hlock
                  simp only [Prod.mk.injEq] at heq
                  rw [← heq.2]
                  have hx : s1x = (BalanceRepository.lockBalance s uid "RUB"
                      (ExchangeService.prewalk
                        (ExchangeService.getOrderbook s b.ticker 10).askLevels
                        b.qty).1).2 := (congrArg Prod.snd hlock).symm
                  rw [hx]
                  exact lockBalance_inv _ _ _ _ hinv hreq
                · rename_i v s1x hlock
                  simp only [Prod.mk.injEq] at heq
                  exact absurd heq.1 (by simp)
      · -- SELL
        split at heq
        · simp only [Prod.mk.injEq] at heq
          rw [← heq.2]
          exact hinv
        · split at heq
          · simp only [Prod.mk.injEq] at heq
            rw [← heq.2]
            exact hinv
          · rename_i bal hfb
            split at heq
            · simp only [Prod.mk.injEq] at heq
              rw [← heq.2]
              exact hinv
            · split at heq
              · simp only [Prod.mk.injEq] at heq
                rw [← heq.2]
                exact hinv
              · split at heq
                · rename_i s1x hlock
                  simp only [Prod.mk.injEq] at heq
                  rw [← heq.2]
                  have hx : s1x = (BalanceRepository.lockBalance s uid b.ticker
                      b.qty).2 := (congrArg Prod.snd hlock).symm
                  rw [hx]
                  exact lockBalance_inv _ _ _ _ hinv (by omega)
                · rename_i v s1x hlock
                  simp only [Prod.mk.injEq] at heq
                  exact absurd heq.1 (by simp)
    · -- the service-level step succeeded with state s1
      rename_i v1 s1 heq
      have hinv1 : Inv s1 := by
        split at heq
        · split at heq
          · exact absurd heq (by simp)
          · split at heq
            · exact absurd heq (by simp)
            · split at heq
              · exact absurd heq (by simp)
              · rename_i bal hfb
                split at heq
                · exact absurd heq (by simp)
                · split at heq
                  · rename_i s1x hlock
                    exact absurd heq (by simp)
                  · rename_i v s1x hlock
                    simp only [Prod.mk.injEq] at heq
                    rw [← heq.2]
                    have hx : s1x = (BalanceRepository.lockBalance s uid "RUB"
                        (ExchangeService.prewalk
                          (ExchangeService.getOrderbook s b.ticker 10).askLevels
                          b.qty).1).2 := (congrArg Prod.snd hlock).symm
                    rw [hx]
                    exact lockBalance_inv _ _ _ _ hinv hreq
        · split at heq
          · exact absurd heq (by simp)
          · split at heq
            · exact absurd heq (by simp)
            · rename_i bal hfb
              split at heq
              · exact absurd heq (by simp)
              · split at heq
                · exact absurd heq (by simp)
                · split at heq
                  · rename_i s1x hlock
                    exact absurd heq (by simp)
                  · rename_i v s1x hlock
                    simp only [Prod.mk.injEq] at heq
                    rw [← heq.2]
                    have hx : s1x = (BalanceRepository.lockBalance s uid
                        b.ticker b.qty).2 := (congrArg Prod.snd hlock).symm
                    rw [hx]
                    exact lockBalance_inv _ _ _ _ hinv (by omega)
      split
      · -- repository creation errored (its SELL lock failed)
        rename_i e s2 hrepo
        show Inv s2
        simp only [OrderRepository.createMarketOrder] at hrepo
        split at hrepo
        · rename_i s2x hlock2
          simp only [Prod.mk.injEq] at hrepo
          rw [← hrepo.2]
          split at hlock2
          · have hx : s2x = (BalanceRepository.lockBalance s1 uid b.ticker
                b.qty).2 := (congrArg Prod.snd hlock2).symm
            rw [hx]
            exact lockBalance_inv _ _ _ _ hinv1 (by omega)
          · simp only [Prod.mk.injEq] at hlock2
            exact absurd hlock2.1 (by simp)
        · rename_i v2 s2x hlock2
          simp only [Prod.mk.injEq] at hrepo
          exact absurd hrepo.1 (by simp)
      · -- repository creation succeeded; the match loop runs
        rename_i o s2 hrepo
        simp only [OrderRepository.createMarketOrder] at hrepo
        split at hrepo
        · rename_i s2x hlock2
          exact absurd hrepo (by simp)
        · rename_i v2 s2x hlock2
          simp only [Prod.mk.injEq, Except.ok.injEq] at hrepo
          obtain ⟨ho, hs2⟩ := hrepo
          subst hs2
          subst ho
          apply matchOrders_inv
          have hinv2 : Inv s2x := by
            split at hlock2
            · have hx : s2x = (BalanceRepository.lockBalance s1 uid b.ticker
                  b.qty).2 := (congrArg Prod.snd hlock2).symm
              rw [hx]
              exact lockBalance_inv _ _ _ _ hinv1 (by omega)
            · simp only [Prod.mk.injEq] at hlock2
              rw [← hlock2.2]
              exact hinv1
          apply appendOrder_inv _ _ _ hinv2
          · refine ⟨?_, ?_, ?_, ?_⟩
            · show (0 : Int) ≤ 0
              omega
            · show (0 : Int) ≤ b.qty
              omega
            · show s2x.nextOrderId < s2x.nextOrderId + 1
              omega
            · intro hlim
              exact absurd hlim (by simp)
          · rfl

/-- Claim C6 (amended): of the claimed invariant `0 ≤ reserved ≤ total`,
the lower half survives: starting from a well-formed state (nonnegative
reserved amounts, well-formed order rows, distinct ids), every completed
operation — deposit, withdraw, limit order, market order, cancel, on valid
request bodies — leaves a state in which every balance row still has
`0 ≤ reserved`, order rows stay well-formed and ids distinct.  The upper
half `reserved ≤ total` does NOT hold (see the counterexample: `withdraw`
never consults the reserved amount). -/
theorem c6_inv_preserved (s : ExchangeState) (op : Op)
    (hinv : Inv s) (hval : ValidOp op) : Inv (applyOp s op) := by
  cases op with
  | deposit uid t amt => exact deposit_inv s uid t amt hinv
  | withdraw uid t amt => exact withdraw_inv s uid t amt hinv
  | limitOrder uid b => exact createLimitOrder_inv s uid b hinv hval.1 hval.2
  | marketOrder uid b => exact createMarketOrder_inv s uid b hinv hval
  | cancel uid oid => exact cancelOrder_inv s uid oid hinv

theorem c6_inv_preserved_witness :
    Inv c6WState ∧ ValidOp (Op.limitOrder 1 ⟨Direction.buy, "MEM", 2, 50⟩) ∧
      Inv (applyOp c6WState (Op.limitOrder 1 ⟨Direction.buy, "MEM", 2, 50⟩)) :=
  ⟨by decide, by decide,
    c6_inv_preserved c6WState (Op.limitOrder 1 ⟨Direction.buy, "MEM", 2, 50⟩)
      (by decide) (by decide)⟩

end StackExchange